import Mathlib

/-!
# Task executor of `go-cli-tool`: a shallow embedding

The development follows `internal/task/task.go`, `internal/task/executor.go` and
`internal/task/config.go`.

Modelling conventions.

* A Go `map[string]V` is an association list `GoMap V` with at most one entry per key on
  every state built by the operations below; `mapGet` is the Go lookup `m[k]` (with the
  `exists` flag as the `Option`), `mapSet` the Go assignment `m[k] = v`.
* Go iterates a map with `range` in an unspecified order.  Every function that ranges over
  a map takes the order of enumeration as an explicit argument `iter`.
* A Go `error` is `Option String`: `none` is `nil`, `some msg` an error with message `msg`.
* A `*TaskResult` may be `nil`, hence `Option TaskResult`.  A `*Task` held by the executor
  is the task stored under its map key; a mutation through the pointer is a write-back
  of the updated task under that key.
* Go `int` is the 64 bit two's complement integer: arithmetic results are wrapped by
  `wrapInt`.
* Recursion and loops that need not terminate take a `fuel : Nat`; `none` means that the
  call does not return with that much fuel.
* The operating system is a `World`: an oracle that gives the outcome of the `n`-th
  process started, together with logs of what has been executed so far.  Wall-clock
  fields (`StartTime`, `EndTime`, `Duration`) and the progress narration printed in
  verbose mode are not part of the model.
-/

namespace GoCliTool

/-! ## Go maps -/

/-- A Go `map[string]β`. -/
abbrev GoMap (β : Type) := List (String × β)

/-- The lookup `m[k]`; `none` when the key is absent. -/
def mapGet {β : Type} : GoMap β → String → Option β
  | [], _ => none
  | (k', v) :: rest, k => if k' = k then some v else mapGet rest k

/-- The assignment `m[k] = v`. -/
def mapSet {β : Type} : GoMap β → String → β → GoMap β
  | [], k, v => [(k, v)]
  | (k', v') :: rest, k, v => if k' = k then (k, v) :: rest else (k', v') :: mapSet rest k v

/-- The keys of a map, in storage order. -/
def mapKeys {β : Type} (m : GoMap β) : List String := m.map Prod.fst

/-! ## Machine integers -/

/-- Wrap an integer to the range of Go's 64 bit `int`. -/
def wrapInt (x : Int) : Int := (x + 2 ^ 63) % 2 ^ 64 - 2 ^ 63

/-- Largest value of Go's 64 bit `int`. -/
def maxInt : Int := 2 ^ 63 - 1

/-! ## Tasks (`task.go`) -/

abbrev TaskType := String

def TaskTypeCommand : TaskType := "command"

def TaskTypeScript : TaskType := "script"

def TaskTypeHTTP : TaskType := "http"

abbrev TaskStatus := String

def StatusPending : TaskStatus := "pending"

def StatusRunning : TaskStatus := "running"

def StatusCompleted : TaskStatus := "completed"

def StatusFailed : TaskStatus := "failed"

def StatusSkipped : TaskStatus := "skipped"

/-- The struct `Task` (without its two timestamps); `Typ` is the field `Type`. -/
structure Task where
  ID : String
  Name : String
  Description : String
  Typ : TaskType
  Command : String
  Args : List String
  WorkDir : String
  Env : List (String × String)
  Timeout : Int
  RetryCount : Int
  DependsOn : List String
  Status : TaskStatus
  Output : String
  Error : String
  deriving DecidableEq

/-- The struct `TaskResult` (without `Duration`).  The field `Task` holds the identifier
of the task the result belongs to. -/
structure TaskResult where
  Task : String
  Success : Bool
  Output : String
  Error : Option String
  ExitCode : Int
  deriving DecidableEq

/-- `Task.Validate`. -/
def Task.Validate (t : Task) : Option String :=
  if t.ID = "" then some "task ID is required"
  else if t.Name = "" then some "task name is required"
  else if t.Typ = "" then some "task type is required"
  else if t.Command = "" then some "task command is required"
  else none

/-! ## The operating system -/

/-- The error of a finished process; `exitCode` is present for an `*exec.ExitError`. -/
structure ProcError where
  msg : String
  exitCode : Option Int
  deriving DecidableEq

/-- What `cmd.CombinedOutput()` returns. -/
structure ProcOutcome where
  output : String
  err : Option ProcError
  deriving DecidableEq

/-- An `*exec.Cmd` as configured by `executeCommand`; `deadline` is the task's timeout
when one is set. -/
structure Cmd where
  path : String
  args : List String
  dir : String
  env : List String
  deadline : Option Int
  deriving DecidableEq

/-- The environment of a run. -/
structure World where
  /-- Outcome of the process started when `n` processes have been started before. -/
  oracle : Nat → Cmd → ProcOutcome
  /-- The processes started so far, oldest first. -/
  started : List Cmd
  /-- The identifiers of the tasks on which `Execute` has been called, oldest first. -/
  executed : List String
  /-- The number of two-second waits made between attempts. -/
  sleeps : Nat

/-- `cmd.CombinedOutput()`: start the process and wait for it. -/
def World.run (w : World) (c : Cmd) : ProcOutcome × World :=
  (w.oracle w.started.length c, { w with started := w.started ++ [c] })

/-! ## Execution of one task (`task.go`) -/

/-- Go's `unicode.IsSpace`. -/
def isSpace (c : Char) : Bool :=
  c = '\t' || c = '\n' || c.val = 0x0B || c.val = 0x0C || c = '\r' || c = ' ' ||
  c.val = 0x85 || c.val = 0xA0 || c.val = 0x1680 || (0x2000 ≤ c.val && c.val ≤ 0x200A) ||
  c.val = 0x2028 || c.val = 0x2029 || c.val = 0x202F || c.val = 0x205F || c.val = 0x3000

/-- The loop of `strings.Fields` over the characters: `cur` is the field being read,
in reverse. -/
def fieldsAux : List Char → List Char → List String
  | [], cur => if cur = [] then [] else [String.mk cur.reverse]
  | c :: cs, cur =>
    if isSpace c then
      (if cur = [] then fieldsAux cs [] else String.mk cur.reverse :: fieldsAux cs [])
    else fieldsAux cs (c :: cur)

/-- `strings.Fields`. -/
def Fields (s : String) : List String := fieldsAux s.data []

/-- `Task.executeCommand`. -/
def Task.executeCommand (t : Task) (deadline : Option Int) (result : TaskResult) (w : World) :
    TaskResult × Task × World :=
  let finish (path : String) (args : List String) : TaskResult × Task × World :=
    let cmd : Cmd :=
      { path := path, args := args, dir := t.WorkDir,
        env := t.Env.map (fun kv => kv.1 ++ "=" ++ kv.2), deadline := deadline }
    let (out, w') := w.run cmd
    let result := { result with Output := out.output }
    let t := { t with Output := out.output }
    match out.err with
    | some err =>
      ({ result with Error := some err.msg, ExitCode := err.exitCode.getD result.ExitCode },
       { t with Status := StatusFailed, Error := err.msg }, w')
    | none =>
      ({ result with Success := true, ExitCode := 0 }, { t with Status := StatusCompleted }, w')
  if 0 < t.Args.length then finish t.Command t.Args
  else
    match Fields t.Command with
    | [] =>
      ({ result with Error := some "empty command" },
       { t with Status := StatusFailed, Error := "empty command" }, w)
    | p :: ps => finish p ps

/-- `Task.executeScript`. -/
def Task.executeScript (t : Task) (deadline : Option Int) (result : TaskResult) (w : World) :
    TaskResult × Task × World :=
  t.executeCommand deadline result w

/-- `Task.executeHTTP`. -/
def Task.executeHTTP (t : Task) (result : TaskResult) (w : World) : TaskResult × Task × World :=
  ({ result with Error := some "HTTP task type not yet implemented" },
   { t with Status := StatusFailed, Error := "HTTP task type not yet implemented" }, w)

/-- `Task.Execute`: the result, the task after the call and the world after the call. -/
def Task.Execute (t : Task) (w : World) : TaskResult × Task × World :=
  let result : TaskResult :=
    { Task := t.ID, Success := false, Output := "", Error := none, ExitCode := 0 }
  let w := { w with executed := w.executed ++ [t.ID] }
  let t := { t with Status := StatusRunning }
  let deadline : Option Int := if 0 < t.Timeout then some t.Timeout else none
  if t.Typ = TaskTypeCommand then t.executeCommand deadline result w
  else if t.Typ = TaskTypeScript then t.executeScript deadline result w
  else if t.Typ = TaskTypeHTTP then t.executeHTTP result w
  else
    ({ result with Error := some ("unknown task type: " ++ t.Typ) },
     { t with Status := StatusFailed, Error := "unknown task type: " ++ t.Typ }, w)

/-! ## The executor (`executor.go`) -/

/-- The struct `Executor` (without its lock). -/
structure Executor where
  tasks : GoMap Task
  results : GoMap (Option TaskResult)
  concurrency : Int
  verbose : Bool
  deriving DecidableEq

/-- `NewExecutor`. -/
def NewExecutor (concurrency : Int) (verbose : Bool) : Executor :=
  { tasks := [], results := [],
    concurrency := if concurrency ≤ 0 then 1 else concurrency, verbose := verbose }

/-- `Executor.AddTask`: the returned error and the executor after the call. -/
def Executor.AddTask (e : Executor) (task : Task) : Option String × Executor :=
  match task.Validate with
  | some err => (some ("invalid task: " ++ err), e)
  | none =>
    match mapGet e.tasks task.ID with
    | some _ => (some ("task with ID " ++ task.ID ++ " already exists"), e)
    | none => (none, { e with tasks := mapSet e.tasks task.ID task })

/-- `Executor.AddTasks`. -/
def Executor.AddTasks (e : Executor) : List Task → Option String × Executor
  | [] => (none, e)
  | task :: rest =>
    match e.AddTask task with
    | (some err, e') => (some err, e')
    | (none, e') => e'.AddTasks rest

/-! ### Ordering -/

/-- The two variables captured by the closure `visit`. -/
structure VisitState where
  visited : GoMap Bool
  order : List String
  deriving DecidableEq

/-- Result of a call that may fail with a Go error or not return at all. -/
abbrev Partial (α : Type) := Option (Except String α)

/-- The loop over `task.DependsOn` inside `visit`; `visit` is the recursive call. -/
def visitDeps (tasks : GoMap Task) (visit : String → VisitState → Partial VisitState)
    (taskID : String) : List String → VisitState → Partial VisitState
  | [], st => some (.ok st)
  | depID :: rest, st =>
    match mapGet tasks depID with
    | none => some (.error ("dependency " ++ depID ++ " not found for task " ++ taskID))
    | some _ =>
      match visit depID st with
      | none => none
      | some (.error err) => some (.error err)
      | some (.ok st') => visitDeps tasks visit taskID rest st'

/-- The closure `visit` of `buildExecutionOrder`; `fuel` bounds the recursion depth. -/
def visit (tasks : GoMap Task) : Nat → String → VisitState → Partial VisitState
  | 0, _, _ => none
  | fuel + 1, taskID, st =>
    if (mapGet st.visited taskID).getD false = true then some (.ok st)
    else
      match mapGet tasks taskID with
      | none => some (.error ("task " ++ taskID ++ " not found"))
      | some task =>
        match visitDeps tasks (visit tasks fuel) taskID task.DependsOn st with
        | none => none
        | some (.error err) => some (.error err)
        | some (.ok st') =>
          some (.ok { visited := mapSet st'.visited taskID true, order := st'.order ++ [taskID] })

/-- The loop `for taskID := range e.tasks` of `buildExecutionOrder`. -/
def visitAll (tasks : GoMap Task) (fuel : Nat) : List String → VisitState → Partial VisitState
  | [], st => some (.ok st)
  | taskID :: rest, st =>
    match visit tasks fuel taskID st with
    | none => none
    | some (.error err) => some (.error err)
    | some (.ok st') => visitAll tasks fuel rest st'

/-- `Executor.buildExecutionOrder`, ranging over the task map in the order `iter`. -/
def buildExecutionOrder (tasks : GoMap Task) (iter : List String) (fuel : Nat) :
    Partial (List String) :=
  match visitAll tasks fuel iter { visited := [], order := [] } with
  | none => none
  | some (.error err) => some (.error err)
  | some (.ok st) => some (.ok st.order)

/-! ### Running -/

/-- `Executor.checkDependencies`; `none` when the recorded result of a dependency is a
nil pointer, which the Go code dereferences. -/
def checkDependenciesLoop (results : GoMap (Option TaskResult)) : List String → Option Bool
  | [] => some true
  | depID :: rest =>
    match mapGet results depID with
    | none => some false
    | some none => none
    | some (some result) =>
      if !result.Success then some false else checkDependenciesLoop results rest

/-- `Executor.checkDependencies`. -/
def Executor.checkDependencies (e : Executor) (task : Task) : Option Bool :=
  checkDependenciesLoop e.results task.DependsOn

/-- The loop of `executeWithRetry`, entered at its condition with loop variable
`attempt`; `result` is the local variable of that name. -/
def retryLoop (maxAttempts : Int) :
    Nat → Int → Option TaskResult → Task → World → Option (Option TaskResult × Task × World)
  | 0, _, _, _, _ => none
  | fuel + 1, attempt, result, task, w =>
    if attempt ≤ maxAttempts then
      match task.Execute w with
      | (r, task', w') =>
        if r.Success then some (some r, task', w')
        else
          retryLoop maxAttempts fuel (wrapInt (attempt + 1)) (some r) task'
            (if attempt < maxAttempts then { w' with sleeps := w'.sleeps + 1 } else w')
    else some (result, task, w)

/-- `Executor.executeWithRetry`: the returned pointer, the task and the world after the
call. -/
def executeWithRetry (fuel : Nat) (task : Task) (w : World) :
    Option (Option TaskResult × Task × World) :=
  retryLoop (wrapInt (task.RetryCount + 1)) fuel 1 none task w

/-- How a Go call ends: it returns a value or panics. -/
inductive Outcome (α : Type) where
  | returned (a : α)
  | panicked
  deriving DecidableEq

/-- The text that the verb `%w` of `fmt.Errorf` prints for an error value. -/
def errorText : Option String → String
  | some msg => msg
  | none => "%!w(<nil>)"

/-- The result recorded for a task whose dependencies did not all succeed. -/
def skippedResult (task : Task) : TaskResult :=
  { Task := task.ID, Success := false, Output := "", Error := some "dependencies failed",
    ExitCode := 0 }

/-- The executor after the task registered as `taskID` has been mutated into `task` through
its pointer and `e.results[taskID] = result` has been executed. -/
def Executor.record (e : Executor) (taskID : String) (task : Task)
    (result : Option TaskResult) : Executor :=
  { e with tasks := mapSet e.tasks taskID task, results := mapSet e.results taskID result }

/-- The body of the loop of `ExecuteAll` for one `taskID`.  The first component is
`some out` when the body leaves `ExecuteAll` with `out`, and `none` when the loop goes on
to the next identifier. -/
def runTask (fuel : Nat) (taskID : String) (e : Executor) (w : World) :
    Option (Option (Outcome (Option String)) × Executor × World) :=
  match mapGet e.tasks taskID with
  | none => some (some .panicked, e, w)
  | some task =>
    match e.checkDependencies task with
    | none => some (some .panicked, e, w)
    | some false =>
      some (none,
        e.record taskID { task with Status := StatusSkipped } (some (skippedResult task)), w)
    | some true =>
      match executeWithRetry fuel task w with
      | none => none
      | some (result, task', w') =>
        match result with
        | none => some (some .panicked, e.record taskID task' none, w')
        | some r =>
          some (
            if !r.Success && task'.RetryCount == 0 then
              some (.returned (some ("task " ++ taskID ++ " failed: " ++ errorText r.Error)))
            else none,
            e.record taskID task' (some r), w')

/-- The loop `for _, taskID := range executionOrder` of `ExecuteAll`. -/
def runOrder (fuel : Nat) :
    List String → Executor → World → Option (Outcome (Option String) × Executor × World)
  | [], e, w => some (.returned none, e, w)
  | taskID :: rest, e, w =>
    match runTask fuel taskID e w with
    | none => none
    | some (some out, e', w') => some (out, e', w')
    | some (none, e', w') => runOrder fuel rest e' w'

/-- `Executor.ExecuteAll`, where `range e.tasks` enumerates the keys in the order `iter`. -/
def Executor.ExecuteAll (e : Executor) (iter : List String) (fuel : Nat) (w : World) :
    Option (Outcome (Option String) × Executor × World) :=
  if e.tasks.length = 0 then some (.returned (some "no tasks to execute"), e, w)
  else
    match buildExecutionOrder e.tasks iter fuel with
    | none => none
    | some (.error err) =>
      some (.returned (some ("failed to build execution order: " ++ err)), e, w)
    | some (.ok executionOrder) => runOrder fuel executionOrder e w

/-- `Executor.ExecuteTask`: the returned pair, the executor and the world after the call. -/
def Executor.ExecuteTask (e : Executor) (fuel : Nat) (taskID : String) (w : World) :
    Option ((Option TaskResult × Option String) × Executor × World) :=
  match mapGet e.tasks taskID with
  | none => some ((none, some ("task " ++ taskID ++ " not found")), e, w)
  | some task =>
    match executeWithRetry fuel task w with
    | none => none
    | some (result, task', w') =>
      some ((result, none), e.record taskID task' result, w')

/-- `Executor.GetResults`: a copy of the result map. -/
def Executor.GetResults (e : Executor) : GoMap (Option TaskResult) := e.results

/-- `Executor.GetResult`: the stored pointer and the `exists` flag. -/
def Executor.GetResult (e : Executor) (taskID : String) : Option TaskResult × Bool :=
  match mapGet e.results taskID with
  | some result => (result, true)
  | none => (none, false)

/-- `Executor.Clear`. -/
def Executor.Clear (e : Executor) : Executor :=
  { e with tasks := [], results := [] }

/-! ## Configuration (`config.go`) -/

/-- The struct `TaskDefaults`. -/
structure TaskDefaults where
  Timeout : Int
  RetryCount : Int
  WorkDir : String
  deriving DecidableEq

/-- The struct `Config`; the entries of `Tasks` are non-nil pointers. -/
structure Config where
  Version : String
  Tasks : List Task
  Defaults : TaskDefaults
  deriving DecidableEq

/-- The first loop of `Config.Validate`; `taskIDs` is the map of that name. -/
def validateTasks : List Task → GoMap Bool → Except String (GoMap Bool)
  | [], taskIDs => .ok taskIDs
  | task :: rest, taskIDs =>
    match task.Validate with
    | some err => .error ("task " ++ task.ID ++ ": " ++ err)
    | none =>
      if (mapGet taskIDs task.ID).getD false = true then
        .error ("duplicate task ID: " ++ task.ID)
      else validateTasks rest (mapSet taskIDs task.ID true)

/-- The inner loop of the second loop of `Config.Validate`, over `task.DependsOn`. -/
def validateDependsOn (taskIDs : GoMap Bool) (taskID : String) : List String → Option String
  | [] => none
  | depID :: rest =>
    if (mapGet taskIDs depID).getD false = true then validateDependsOn taskIDs taskID rest
    else some ("task " ++ taskID ++ " depends on non-existent task: " ++ depID)

/-- The second loop of `Config.Validate`. -/
def validateDependencies (taskIDs : GoMap Bool) : List Task → Option String
  | [] => none
  | task :: rest =>
    match validateDependsOn taskIDs task.ID task.DependsOn with
    | some err => some err
    | none => validateDependencies taskIDs rest

/-- `Config.Validate`. -/
def Config.Validate (c : Config) : Option String :=
  if c.Version = "" then some "config version is required"
  else if c.Tasks.length = 0 then some "at least one task is required"
  else
    match validateTasks c.Tasks [] with
    | .error err => some err
    | .ok taskIDs => validateDependencies taskIDs c.Tasks

/-! ## Specification vocabulary -/

/-- The identifier `id` is a key of the task map. -/
def Registered (tasks : GoMap Task) (id : String) : Prop := ∃ t, mapGet tasks id = some t

/-- The task registered as `a` lists `b` in its `DependsOn`. -/
def DependsEdge (tasks : GoMap Task) (a b : String) : Prop :=
  ∃ t, mapGet tasks a = some t ∧ b ∈ t.DependsOn

/-- No task reaches itself along one or more dependency edges. -/
def Acyclic (tasks : GoMap Task) : Prop :=
  ∀ id, ¬ Relation.TransGen (DependsEdge tasks) id id

/-- Every dependency identifier of every registered task is registered. -/
def DepsRegistered (tasks : GoMap Task) : Prop :=
  ∀ id t, mapGet tasks id = some t → ∀ d ∈ t.DependsOn, Registered tasks d

/-- Every entry of `order` is registered and all its dependencies stand before it. -/
def DepsBefore (tasks : GoMap Task) (order : List String) : Prop :=
  ∀ pre id post, order = pre ++ id :: post →
    ∃ t, mapGet tasks id = some t ∧ ∀ d ∈ t.DependsOn, d ∈ pre

/-- The invariant of the traversal state of `buildExecutionOrder`. -/
structure VisitInv (tasks : GoMap Task) (st : VisitState) : Prop where
  visited_iff : ∀ id, (mapGet st.visited id).getD false = true ↔ id ∈ st.order
  before : DepsBefore tasks st.order

/-- Every task of the executor is stored under its own identifier, as `AddTask` stores
it. -/
def Executor.WellFormed (e : Executor) : Prop :=
  ∀ k t, mapGet e.tasks k = some t → t.ID = k

/-- The two tasks agree on identifier, retry count and dependencies. -/
def SameConfig (t t' : Task) : Prop :=
  t'.ID = t.ID ∧ t'.RetryCount = t.RetryCount ∧ t'.DependsOn = t.DependsOn

/-- What a successful `visit x` establishes. -/
def VisitPost (tasks : GoMap Task) (x : String) (st st' : VisitState) : Prop :=
  VisitInv tasks st' ∧ x ∈ st'.order ∧
    ∃ added, st'.order = st.order ++ added ∧
      ∀ y ∈ added, Relation.ReflTransGen (DependsEdge tasks) x y

/-! ## Sample data -/

/-- A command task with the given identifier, retry count and dependencies. -/
def sampleTask (id : String) (retry : Int) (deps : List String) : Task :=
  { ID := id, Name := id, Description := "", Typ := TaskTypeCommand, Command := "run " ++ id,
    Args := [], WorkDir := "", Env := [], Timeout := 0, RetryCount := retry, DependsOn := deps,
    Status := StatusPending, Output := "", Error := "" }

/-- The task map that registers the given tasks under their identifiers. -/
def sampleMap (ts : List Task) : GoMap Task := ts.map (fun t => (t.ID, t))

/-- Tasks `a` and `b`, where `b` depends on `a`, registered in the order `b`, `a`. -/
def sampleTasksBA : GoMap Task := sampleMap [sampleTask "b" 0 ["a"], sampleTask "a" 0 []]

/-! ## Attempts -/

/-- The task and the world once the first `n` attempts on `task` have all failed and the
wait after each of them has been made. -/
def afterFailures : Nat → Task → World → Task × World
  | 0, task, w => (task, w)
  | n + 1, task, w =>
    match task.Execute w with
    | (_, task', w') => afterFailures n task' { w' with sleeps := w'.sleeps + 1 }

/-- The call of `Execute` that is attempt number `n + 1` on `task`, the attempts before it
having failed. -/
def attemptResult (n : Nat) (task : Task) (w : World) : TaskResult × Task × World :=
  (afterFailures n task w).1.Execute (afterFailures n task w).2

/-- A world in which every process succeeds with output `ok`. -/
def okWorld : World :=
  { oracle := fun _ _ => { output := "ok", err := none }, started := [], executed := [],
    sleeps := 0 }

/-- A world in which every process exits with status 1. -/
def failWorld : World :=
  { oracle := fun _ _ => { output := "", err := some { msg := "exit status 1", exitCode := some 1 } },
    started := [], executed := [], sleeps := 0 }

/-- The task maps of the two executors have the same keys, and under each key tasks that
agree on identifier, retry count and dependencies. -/
def TasksEquiv (e e' : Executor) : Prop :=
  ∀ k, (mapGet e.tasks k = none ∧ mapGet e'.tasks k = none) ∨
    ∃ t t', mapGet e.tasks k = some t ∧ mapGet e'.tasks k = some t' ∧ SameConfig t t'

/-- An executor without results that holds the given tasks under their identifiers. -/
def sampleExecutor (ts : List Task) : Executor :=
  { tasks := sampleMap ts, results := [], concurrency := 1, verbose := false }

/-- Tasks `a` (retry count 1) and `b` (retry count 0, depending on `a`), no results. -/
def sampleExecutorRetry : Executor :=
  sampleExecutor [sampleTask "a" 1 [], sampleTask "b" 0 ["a"]]

/-- Tasks `a` (retry count 1), `c` (retry count 0) and `b` (depending on `a`), no
results. -/
def sampleExecutorACB : Executor :=
  sampleExecutor [sampleTask "a" 1 [], sampleTask "c" 0 [], sampleTask "b" 0 ["a"]]

/-- One task `a` that depends on the unregistered identifier `zzz`. -/
def sampleExecutorDangling : Executor := sampleExecutor [sampleTask "a" 0 ["zzz"]]

/-- A configuration with version `1` and the given tasks. -/
def sampleConfig (ts : List Task) : Config :=
  { Version := "1", Tasks := ts, Defaults := { Timeout := 0, RetryCount := 0, WorkDir := "" } }

/-- The task `b` with an empty name. -/
def sampleTaskNoName : Task := { sampleTask "b" 0 [] with Name := "" }

/-- The error message `err` of `Config.Validate` is about the task `t`. -/
def NamesTask (err : String) (t : Task) : Prop :=
  (∃ verr, err = "task " ++ t.ID ++ ": " ++ verr) ∨
  err = "duplicate task ID: " ++ t.ID ∨
  ∃ d, err = "task " ++ t.ID ++ " depends on non-existent task: " ++ d

/-- The task `t`, which stands after the tasks `pre` in the list `all`, breaks a
validation rule: it is ill-formed, repeats the identifier of an earlier task, or depends
on an identifier that no task of the list has. -/
def Offends (all pre : List Task) (t : Task) : Prop :=
  t.Validate ≠ none ∨ t.ID ∈ pre.map Task.ID ∨ ∃ d ∈ t.DependsOn, ∀ u ∈ all, u.ID ≠ d

/-- The error `err` names a task of the list before which no task breaks a validation
rule. -/
def ReportsFirstOffender (c : Config) (err : String) : Prop :=
  ∃ pre t post, c.Tasks = pre ++ t :: post ∧ NamesTask err t ∧
    ∀ pre' u post', pre = pre' ++ u :: post' → ¬ Offends c.Tasks pre' u

/-- Task `a` depends on the non-existent `zzz`; task `b`, after it, has no name. -/
def sampleConfigTwoFaults : Config := sampleConfig [sampleTask "a" 0 ["zzz"], sampleTaskNoName]

/-! ## Greeter (`internal/greeter/greeter.go`) -/

/-- The struct `Greeter`; `pfx` is its field `prefix`. -/
structure Greeter where
  pfx : String
  deriving DecidableEq

/-- `greeter.New`. -/
def Greeter.New : Greeter := { pfx := "Hello" }

/-- `greeter.NewWithPrefix`. -/
def Greeter.NewWithPrefix (pfx : String) : Greeter := { pfx := pfx }

/-- Go's `unicode.ToUpper`.  Up to `unicode.MaxASCII` the letters `a` to `z` (97 to 122)
are moved down by `'a' - 'A'` (32) and every other character is returned as it is; above
it the result is read from the case tables of the standard library, `unicode.To(UpperCase,
r)`, which is the argument `table`. -/
def unicodeToUpper (table : Char → Char) (c : Char) : Char :=
  if c.toNat ≤ 0x7F then
    if 97 ≤ c.toNat ∧ c.toNat ≤ 122 then Char.ofNat (c.toNat - 32) else c
  else table c

/-- Go's `strings.ToUpper` on a valid string: every character is mapped by
`unicode.ToUpper` (the ASCII fast path of the library computes the same string). -/
def ToUpper (table : Char → Char) (s : String) : String :=
  String.mk (s.data.map (unicodeToUpper table))

/-- `Greeter.Greet`; `table` is the non-ASCII part of `unicode.ToUpper`. -/
def Greeter.Greet (table : Char → Char) (g : Greeter) (name : String) (uppercase : Bool) :
    String :=
  let name := if name = "" then "World" else name
  let message := g.pfx ++ ", " ++ name ++ "!"
  if uppercase then ToUpper table message else message

/-- The character `c'` is the upper case of `c`: the capital letter 32 below for an ASCII
letter `a` to `z`, the character itself for any other ASCII character, and the entry of
the case table for a character outside ASCII. -/
def UpperOf (table : Char → Char) (c c' : Char) : Prop :=
  (97 ≤ c.toNat ∧ c.toNat ≤ 122 → c'.toNat + 32 = c.toNat ∧ 65 ≤ c'.toNat ∧ c'.toNat ≤ 90) ∧
  (c.toNat ≤ 0x7F → ¬ (97 ≤ c.toNat ∧ c.toNat ≤ 122) → c' = c) ∧
  (¬ c.toNat ≤ 0x7F → c' = table c)

/-- `Greeter.SetPrefix`. -/
def Greeter.SetPrefix (_g : Greeter) (pfx : String) : Greeter := { pfx := pfx }

/-- `Greeter.GetPrefix`. -/
def Greeter.GetPrefix (g : Greeter) : String := g.pfx

/-- The independent tasks `a` and `b`, registered by `AddTasks` in that order. -/
def sampleExecutorIndependent : Executor :=
  ((NewExecutor 1 false).AddTasks [sampleTask "a" 0 [], sampleTask "b" 0 []]).2

/-- The same two tasks, registered by `AddTasks` in the order `b`, `a`. -/
def sampleExecutorIndependentRev : Executor :=
  ((NewExecutor 1 false).AddTasks [sampleTask "b" 0 [], sampleTask "a" 0 []]).2

/-- One task `a` that depends on itself. -/
def sampleTasksSelf : GoMap Task := sampleMap [sampleTask "a" 0 ["a"]]

/-! # Properties -/

/-! ## Go maps: lemmas -/

theorem mapGet_mapSet_self {β : Type} (m : GoMap β) (k : String) (v : β) :
    mapGet (mapSet m k v) k = some v := by
  induction m with
  | nil => simp [mapSet, mapGet]
  | cons p rest ih =>
    obtain ⟨k', v'⟩ := p
    by_cases h : k' = k
    · simp [mapSet, mapGet, h]
    · simp [mapSet, mapGet, h, ih]

theorem mapGet_mapSet_of_ne {β : Type} (m : GoMap β) (k k' : String) (v : β) (hne : k ≠ k') :
    mapGet (mapSet m k v) k' = mapGet m k' := by
  induction m with
  | nil => simp [mapSet, mapGet, hne]
  | cons p rest ih =>
    obtain ⟨k₀, v₀⟩ := p
    by_cases h : k₀ = k
    · subst h
      simp [mapSet, mapGet, hne]
    · by_cases h' : k₀ = k'
      · subst h'
        simp [mapSet, mapGet, h]
      · simp [mapSet, mapGet, h, h', ih]

theorem mapGet_eq_some_mem_keys {β : Type} (m : GoMap β) (k : String) (v : β)
    (h : mapGet m k = some v) : k ∈ mapKeys m := by
  induction m with
  | nil => simp [mapGet] at h
  | cons p rest ih =>
    obtain ⟨k', v'⟩ := p
    by_cases hk : k' = k
    · simp [mapKeys, hk]
    · simp only [mapGet, hk, if_false] at h
      have := ih h
      simp only [mapKeys] at this ⊢
      exact List.mem_cons_of_mem _ this

theorem mem_keys_mapGet {β : Type} (m : GoMap β) (k : String) (h : k ∈ mapKeys m) :
    ∃ v, mapGet m k = some v := by
  induction m with
  | nil => simp [mapKeys] at h
  | cons p rest ih =>
    obtain ⟨k', v'⟩ := p
    by_cases hk : k' = k
    · exact ⟨v', by simp [mapGet, hk]⟩
    · have h' : k ∈ mapKeys rest := by
        simp only [mapKeys, List.map_cons, List.mem_cons] at h
        rcases h with h | h
        · exact absurd h.symm hk
        · exact h
      obtain ⟨v, hv⟩ := ih h'
      exact ⟨v, by simp [mapGet, hk, hv]⟩

theorem registered_iff_mem_keys (tasks : GoMap Task) (id : String) :
    Registered tasks id ↔ id ∈ mapKeys tasks :=
  ⟨fun ⟨t, ht⟩ => mapGet_eq_some_mem_keys tasks id t ht, mem_keys_mapGet tasks id⟩

/-! ## The ordering: soundness of the traversal -/

theorem depsBefore_registered {tasks : GoMap Task} {order : List String}
    (h : DepsBefore tasks order) {id : String} (hid : id ∈ order) : Registered tasks id := by
  obtain ⟨pre, post, hsplit⟩ := List.append_of_mem hid
  obtain ⟨t, ht, _⟩ := h pre id post hsplit
  exact ⟨t, ht⟩

theorem depsBefore_snoc {tasks : GoMap Task} {order : List String} {x : String} {task : Task}
    (h : DepsBefore tasks order) (hx : mapGet tasks x = some task)
    (hdeps : ∀ d ∈ task.DependsOn, d ∈ order) : DepsBefore tasks (order ++ [x]) := by
  intro pre id post hsplit
  rcases List.eq_nil_or_concat post with hpost | ⟨post', b, hpost⟩
  · subst hpost
    have h1 : order ++ [x] = pre ++ [id] := hsplit
    have h2 := List.append_inj' h1 rfl
    obtain ⟨h3, h4⟩ := h2
    have h5 : x = id := by simpa using h4
    subst h5
    subst h3
    exact ⟨task, hx, hdeps⟩
  · subst hpost
    have h1 : order ++ [x] = (pre ++ id :: post') ++ [b] := by
      rw [hsplit]
      simp [List.concat_eq_append]
    have h2 := List.append_inj' h1 rfl
    exact h pre id post' h2.1

theorem visitInv_init (tasks : GoMap Task) :
    VisitInv tasks { visited := [], order := [] } where
  visited_iff := by intro id; simp [mapGet]
  before := by
    intro pre id post h
    simp at h

theorem visitDeps_sound (tasks : GoMap Task) (v : String → VisitState → Partial VisitState)
    (taskID : String)
    (hv : ∀ d st st', VisitInv tasks st → v d st = some (.ok st') → VisitPost tasks d st st') :
    ∀ (deps : List String) (st st' : VisitState), VisitInv tasks st →
      visitDeps tasks v taskID deps st = some (.ok st') →
      VisitInv tasks st' ∧ (∀ d ∈ deps, d ∈ st'.order) ∧
        ∃ added, st'.order = st.order ++ added ∧
          ∀ y ∈ added, ∃ d ∈ deps, Relation.ReflTransGen (DependsEdge tasks) d y := by
  intro deps
  induction deps with
  | nil =>
    intro st st' hinv h
    simp only [visitDeps, Option.some.injEq, Except.ok.injEq] at h
    subst h
    exact ⟨hinv, by simp, [], by simp, by simp⟩
  | cons d rest ih =>
    intro st st' hinv h
    simp only [visitDeps] at h
    cases hd : mapGet tasks d with
    | none => simp [hd] at h
    | some t =>
      simp only [hd] at h
      cases hvd : v d st with
      | none => simp [hvd] at h
      | some r =>
        cases r with
        | error err => simp [hvd] at h
        | ok st1 =>
          simp only [hvd] at h
          obtain ⟨hinv1, hmem1, added1, hord1, hreach1⟩ := hv d st st1 hinv hvd
          obtain ⟨hinv', hmem', added2, hord2, hreach2⟩ := ih st1 st' hinv1 h
          refine ⟨hinv', ?_, added1 ++ added2, ?_, ?_⟩
          · intro d' hd'
            rcases List.mem_cons.mp hd' with h1 | h1
            · subst h1
              rw [hord2]
              exact List.mem_append_left _ hmem1
            · exact hmem' d' h1
          · rw [hord2, hord1, List.append_assoc]
          · intro y hy
            rcases List.mem_append.mp hy with h1 | h1
            · exact ⟨d, List.mem_cons_self _ _, hreach1 y h1⟩
            · obtain ⟨d', hd', hr⟩ := hreach2 y h1
              exact ⟨d', List.mem_cons_of_mem _ hd', hr⟩

theorem visit_sound (tasks : GoMap Task) :
    ∀ (fuel : Nat) (x : String) (st st' : VisitState), VisitInv tasks st →
      visit tasks fuel x st = some (.ok st') → VisitPost tasks x st st' := by
  intro fuel
  induction fuel with
  | zero => intro x st st' _ h; simp [visit] at h
  | succ fuel ih =>
    intro x st st' hinv h
    simp only [visit] at h
    by_cases hvis : (mapGet st.visited x).getD false = true
    · rw [if_pos hvis] at h
      simp only [Option.some.injEq, Except.ok.injEq] at h
      subst h
      exact ⟨hinv, (hinv.visited_iff x).mp hvis, [], by simp, by simp⟩
    · rw [if_neg hvis] at h
      cases hx : mapGet tasks x with
      | none => simp [hx] at h
      | some task =>
        simp only [hx] at h
        cases hd : visitDeps tasks (visit tasks fuel) x task.DependsOn st with
        | none => simp [hd] at h
        | some r =>
          cases r with
          | error err => simp [hd] at h
          | ok st1 =>
            simp only [hd, Option.some.injEq, Except.ok.injEq] at h
            obtain ⟨hinv1, hmem1, added, hord1, hreach1⟩ :=
              visitDeps_sound tasks (visit tasks fuel) x ih task.DependsOn st st1 hinv hd
            subst h
            refine ⟨⟨?_, ?_⟩, by simp, added ++ [x], ?_, ?_⟩
            · intro id
              by_cases hid : x = id
              · subst hid
                simp [mapGet_mapSet_self]
              · rw [mapGet_mapSet_of_ne _ _ _ _ hid, hinv1.visited_iff id]
                simp only [List.mem_append, List.mem_singleton]
                constructor
                · exact fun hm => Or.inl hm
                · rintro (hm | hm)
                  · exact hm
                  · exact absurd hm.symm hid
            · exact depsBefore_snoc hinv1.before hx hmem1
            · simp [hord1]
            · intro y hy
              rcases List.mem_append.mp hy with h1 | h1
              · obtain ⟨d, hdmem, hr⟩ := hreach1 y h1
                exact Relation.ReflTransGen.head ⟨task, hx, hdmem⟩ hr
              · have : y = x := by simpa using h1
                subst this
                exact Relation.ReflTransGen.refl

theorem visitAll_sound (tasks : GoMap Task) (fuel : Nat) :
    ∀ (iter : List String) (st st' : VisitState), VisitInv tasks st →
      visitAll tasks fuel iter st = some (.ok st') →
      VisitInv tasks st' ∧ (∀ id ∈ iter, id ∈ st'.order) ∧ ∀ y ∈ st.order, y ∈ st'.order := by
  intro iter
  induction iter with
  | nil =>
    intro st st' hinv h
    simp only [visitAll, Option.some.injEq, Except.ok.injEq] at h
    subst h
    exact ⟨hinv, by simp, fun _ hy => hy⟩
  | cons x rest ih =>
    intro st st' hinv h
    simp only [visitAll] at h
    cases hx : visit tasks fuel x st with
    | none => simp [hx] at h
    | some r =>
      cases r with
      | error err => simp [hx] at h
      | ok st1 =>
        simp only [hx] at h
        obtain ⟨hinv1, hmem1, added, hord, _⟩ := visit_sound tasks fuel x st st1 hinv hx
        obtain ⟨hinv', hmem', hmono⟩ := ih st1 st' hinv1 h
        refine ⟨hinv', ?_, ?_⟩
        · intro id hid
          rcases List.mem_cons.mp hid with h1 | h1
          · subst h1
            exact hmono id hmem1
          · exact hmem' id h1
        · intro y hy
          apply hmono
          rw [hord]
          exact List.mem_append_left _ hy

/-! ## The ordering: a returned order has no repetition -/

theorem transGen_source_registered {tasks : GoMap Task} {a b : String}
    (h : Relation.TransGen (DependsEdge tasks) a b) : Registered tasks a := by
  induction h with
  | single hedge =>
    obtain ⟨t, ht, _⟩ := hedge
    exact ⟨t, ht⟩
  | tail _ _ ih => exact ih

theorem depsBefore_transGen {tasks : GoMap Task} {order : List String}
    (h : DepsBefore tasks order) {a b : String}
    (hab : Relation.TransGen (DependsEdge tasks) a b) :
    ∀ pre post, order = pre ++ a :: post → b ∈ pre := by
  induction hab with
  | single hedge =>
    intro pre post hsplit
    obtain ⟨t, ht, hd⟩ := hedge
    obtain ⟨t', ht', hpre⟩ := h pre a post hsplit
    rw [ht] at ht'
    cases ht'
    exact hpre _ hd
  | @tail b c _ hedge ih =>
    intro pre post hsplit
    obtain ⟨t, ht, hd⟩ := hedge
    have hb := ih pre post hsplit
    obtain ⟨p1, p2, hp⟩ := List.append_of_mem hb
    have hsplit' : order = p1 ++ b :: (p2 ++ a :: post) := by
      rw [hsplit, hp]; simp
    obtain ⟨t', ht', hpre⟩ := h p1 b _ hsplit'
    rw [ht] at ht'
    cases ht'
    rw [hp]
    exact List.mem_append_left _ (hpre _ hd)

/-- A task map that admits an order holding every registered identifier after all its
dependencies is acyclic. -/
theorem depsBefore_acyclic {tasks : GoMap Task} {order : List String}
    (h : DepsBefore tasks order) (hall : ∀ id, Registered tasks id → id ∈ order) :
    Acyclic tasks := by
  intro a haa
  have key : ∀ n pre post, pre.length = n → order = pre ++ a :: post → False := by
    intro n
    induction n using Nat.strong_induction_on with
    | _ n ih =>
      intro pre post hlen hsplit
      have hmem := depsBefore_transGen h haa pre post hsplit
      obtain ⟨p1, p2, hp⟩ := List.append_of_mem hmem
      have hsplit' : order = p1 ++ a :: (p2 ++ a :: post) := by
        rw [hsplit, hp]; simp
      refine ih p1.length ?_ p1 _ rfl hsplit'
      rw [← hlen, hp]
      simp
  obtain ⟨pre, post, hsplit⟩ := List.append_of_mem (hall a (transGen_source_registered haa))
  exact key pre.length pre post rfl hsplit

theorem visitDeps_preserves (tasks : GoMap Task) (v : String → VisitState → Partial VisitState)
    (taskID : String) (I : VisitState → Prop)
    (hv : ∀ d st st', I st → v d st = some (.ok st') → I st') :
    ∀ (deps : List String) (st st' : VisitState), I st →
      visitDeps tasks v taskID deps st = some (.ok st') → I st' := by
  intro deps
  induction deps with
  | nil =>
    intro st st' hI h
    simp only [visitDeps, Option.some.injEq, Except.ok.injEq] at h
    subst h
    exact hI
  | cons d rest ih =>
    intro st st' hI h
    simp only [visitDeps] at h
    cases hd : mapGet tasks d with
    | none => simp [hd] at h
    | some t =>
      simp only [hd] at h
      cases hvd : v d st with
      | none => simp [hvd] at h
      | some r =>
        cases r with
        | error err => simp [hvd] at h
        | ok st1 =>
          simp only [hvd] at h
          exact ih st1 st' (hv d st st1 hI hvd) h

theorem visit_nodup (tasks : GoMap Task) (hacyc : Acyclic tasks) :
    ∀ (fuel : Nat) (x : String) (st st' : VisitState),
      VisitInv tasks st ∧ st.order.Nodup → visit tasks fuel x st = some (.ok st') →
      VisitInv tasks st' ∧ st'.order.Nodup := by
  intro fuel
  induction fuel with
  | zero => intro x st st' _ h; simp [visit] at h
  | succ fuel ih =>
    intro x st st' hI h
    have hpost := visit_sound tasks (fuel + 1) x st st' hI.1 h
    refine ⟨hpost.1, ?_⟩
    simp only [visit] at h
    by_cases hvis : (mapGet st.visited x).getD false = true
    · rw [if_pos hvis] at h
      simp only [Option.some.injEq, Except.ok.injEq] at h
      subst h
      exact hI.2
    · rw [if_neg hvis] at h
      cases hx : mapGet tasks x with
      | none => simp [hx] at h
      | some task =>
        simp only [hx] at h
        cases hd : visitDeps tasks (visit tasks fuel) x task.DependsOn st with
        | none => simp [hd] at h
        | some r =>
          cases r with
          | error err => simp [hd] at h
          | ok st1 =>
            simp only [hd, Option.some.injEq, Except.ok.injEq] at h
            obtain ⟨_, _, added, hord1, hreach1⟩ :=
              visitDeps_sound tasks (visit tasks fuel) x (visit_sound tasks fuel)
                task.DependsOn st st1 hI.1 hd
            have hI1 := visitDeps_preserves tasks (visit tasks fuel) x
              (fun s => VisitInv tasks s ∧ s.order.Nodup) ih task.DependsOn st st1 hI hd
            have hxst : x ∉ st.order := fun hm => hvis ((hI.1.visited_iff x).mpr hm)
            have hxadd : x ∉ added := by
              intro hm
              obtain ⟨d, hdmem, hr⟩ := hreach1 x hm
              have hedge : DependsEdge tasks x d := ⟨task, hx, hdmem⟩
              exact hacyc x (Relation.TransGen.head' hedge hr)
            have hx1 : x ∉ st1.order := by
              rw [hord1]
              intro hm
              rcases List.mem_append.mp hm with h1 | h1
              · exact hxst h1
              · exact hxadd h1
            subst h
            exact List.Nodup.append hI1.2 (List.nodup_singleton x) (by simpa using hx1)

theorem visitAll_nodup (tasks : GoMap Task) (hacyc : Acyclic tasks) (fuel : Nat) :
    ∀ (iter : List String) (st st' : VisitState),
      VisitInv tasks st ∧ st.order.Nodup → visitAll tasks fuel iter st = some (.ok st') →
      VisitInv tasks st' ∧ st'.order.Nodup := by
  intro iter
  induction iter with
  | nil =>
    intro st st' hI h
    simp only [visitAll, Option.some.injEq, Except.ok.injEq] at h
    subst h
    exact hI
  | cons x rest ih =>
    intro st st' hI h
    simp only [visitAll] at h
    cases hx : visit tasks fuel x st with
    | none => simp [hx] at h
    | some r =>
      cases r with
      | error err => simp [hx] at h
      | ok st1 =>
        simp only [hx] at h
        exact ih st1 st' (visit_nodup tasks hacyc fuel x st st1 hI hx) h

/-! ## The ordering: termination and absence of errors -/

theorem visitDeps_terminates (tasks : GoMap Task) (v : String → VisitState → Partial VisitState)
    (taskID : String) :
    ∀ (deps : List String),
      (∀ d ∈ deps, Registered tasks d → ∀ st, v d st ≠ none) →
      ∀ st, visitDeps tasks v taskID deps st ≠ none := by
  intro deps
  induction deps with
  | nil => intro _ st; simp [visitDeps]
  | cons d rest ih =>
    intro hv st
    simp only [visitDeps]
    cases hd : mapGet tasks d with
    | none => simp
    | some t =>
      simp only
      have h1 := hv d (List.mem_cons_self _ _) ⟨t, hd⟩ st
      cases hvd : v d st with
      | none => exact absurd hvd h1
      | some r =>
        cases r with
        | error err => simp
        | ok st1 =>
          simp only
          exact ih (fun d' hd' => hv d' (List.mem_cons_of_mem _ hd')) st1

theorem path_length_le (tasks : GoMap Task) (path : List String) (hnd : path.Nodup)
    (hreg : ∀ p ∈ path, Registered tasks p) : path.length ≤ tasks.length := by
  have hsub : path ⊆ mapKeys tasks := fun p hp =>
    (registered_iff_mem_keys tasks p).mp (hreg p hp)
  have := (List.Nodup.subperm hnd hsub).length_le
  simpa [mapKeys] using this

theorem visit_terminates (tasks : GoMap Task) (hacyc : Acyclic tasks) :
    ∀ (fuel : Nat) (x : String) (path : List String) (st : VisitState),
      Registered tasks x → path.Nodup → (∀ p ∈ path, Registered tasks p) →
      (∀ p ∈ path, Relation.TransGen (DependsEdge tasks) p x) →
      tasks.length ≤ fuel + path.length → visit tasks fuel x st ≠ none := by
  intro fuel
  induction fuel with
  | zero =>
    intro x path st hx hnd hreg hreach hlen
    exfalso
    have hxp : x ∉ path := fun hm => hacyc x (hreach x hm)
    have h1 := path_length_le tasks (x :: path) (List.nodup_cons.mpr ⟨hxp, hnd⟩)
      (by
        intro p hp
        rcases List.mem_cons.mp hp with h | h
        · subst h; exact hx
        · exact hreg p h)
    simp only [List.length_cons] at h1
    omega
  | succ fuel ih =>
    intro x path st hx hnd hreg hreach hlen
    simp only [visit]
    by_cases hvis : (mapGet st.visited x).getD false = true
    · rw [if_pos hvis]; simp
    · rw [if_neg hvis]
      obtain ⟨task, htask⟩ := hx
      simp only [htask]
      have hxp : x ∉ path := fun hm => hacyc x (hreach x hm)
      have hdeps : ∀ st1, visitDeps tasks (visit tasks fuel) x task.DependsOn st1 ≠ none := by
        apply visitDeps_terminates
        intro d hd hdreg st1
        apply ih d (x :: path) st1 hdreg (List.nodup_cons.mpr ⟨hxp, hnd⟩)
        · intro p hp
          rcases List.mem_cons.mp hp with h | h
          · subst h; exact ⟨task, htask⟩
          · exact hreg p h
        · intro p hp
          have hedge : DependsEdge tasks x d := ⟨task, htask, hd⟩
          rcases List.mem_cons.mp hp with h | h
          · subst h; exact Relation.TransGen.single hedge
          · exact Relation.TransGen.tail (hreach p h) hedge
        · simp only [List.length_cons]; omega
      cases hd : visitDeps tasks (visit tasks fuel) x task.DependsOn st with
      | none => exact absurd hd (hdeps st)
      | some r =>
        cases r with
        | error err => simp
        | ok st1 => simp

theorem visitAll_terminates (tasks : GoMap Task) (hacyc : Acyclic tasks) (fuel : Nat)
    (hfuel : tasks.length ≤ fuel) :
    ∀ (iter : List String), (∀ id ∈ iter, Registered tasks id) →
      ∀ st, visitAll tasks fuel iter st ≠ none := by
  intro iter
  induction iter with
  | nil => intro _ st; simp [visitAll]
  | cons x rest ih =>
    intro hreg st
    simp only [visitAll]
    have h1 := visit_terminates tasks hacyc fuel x [] st (hreg x (List.mem_cons_self _ _))
      List.nodup_nil (by simp) (by simp) (by simpa using hfuel)
    cases hx : visit tasks fuel x st with
    | none => exact absurd hx h1
    | some r =>
      cases r with
      | error err => simp
      | ok st1 =>
        simp only
        exact ih (fun id hid => hreg id (List.mem_cons_of_mem _ hid)) st1

theorem visitDeps_no_error (tasks : GoMap Task) (v : String → VisitState → Partial VisitState)
    (taskID : String) :
    ∀ (deps : List String), (∀ d ∈ deps, Registered tasks d) →
      (∀ d ∈ deps, ∀ st err, v d st ≠ some (.error err)) →
      ∀ st err, visitDeps tasks v taskID deps st ≠ some (.error err) := by
  intro deps
  induction deps with
  | nil => intro _ _ st err; simp [visitDeps]
  | cons d rest ih =>
    intro hreg hv st err
    simp only [visitDeps]
    obtain ⟨t, ht⟩ := hreg d (List.mem_cons_self _ _)
    simp only [ht]
    have h1 := hv d (List.mem_cons_self _ _) st
    cases hvd : v d st with
    | none => simp
    | some r =>
      cases r with
      | error err' => exact absurd hvd (h1 err')
      | ok st1 =>
        simp only
        exact ih (fun d' hd' => hreg d' (List.mem_cons_of_mem _ hd'))
          (fun d' hd' => hv d' (List.mem_cons_of_mem _ hd')) st1 err

theorem visit_no_error (tasks : GoMap Task) (hdeps : DepsRegistered tasks) :
    ∀ (fuel : Nat) (x : String) (st : VisitState) (err : String),
      Registered tasks x → visit tasks fuel x st ≠ some (.error err) := by
  intro fuel
  induction fuel with
  | zero => intro x st err _; simp [visit]
  | succ fuel ih =>
    intro x st err hx
    simp only [visit]
    by_cases hvis : (mapGet st.visited x).getD false = true
    · rw [if_pos hvis]; simp
    · rw [if_neg hvis]
      obtain ⟨task, htask⟩ := hx
      simp only [htask]
      have h1 := visitDeps_no_error tasks (visit tasks fuel) x task.DependsOn
        (hdeps x task htask)
        (fun d hd st1 err1 => ih d st1 err1 (hdeps x task htask d hd)) st
      cases hd : visitDeps tasks (visit tasks fuel) x task.DependsOn st with
      | none => simp
      | some r =>
        cases r with
        | error err' => exact absurd hd (h1 err')
        | ok st1 => simp

theorem visitAll_no_error (tasks : GoMap Task) (hdeps : DepsRegistered tasks) (fuel : Nat) :
    ∀ (iter : List String), (∀ id ∈ iter, Registered tasks id) →
      ∀ st err, visitAll tasks fuel iter st ≠ some (.error err) := by
  intro iter
  induction iter with
  | nil => intro _ st err; simp [visitAll]
  | cons x rest ih =>
    intro hreg st err
    simp only [visitAll]
    have h1 := visit_no_error tasks hdeps fuel x st
    cases hx : visit tasks fuel x st with
    | none => simp
    | some r =>
      cases r with
      | error err' => exact absurd hx (h1 err' (hreg x (List.mem_cons_self _ _)))
      | ok st1 =>
        simp only
        exact ih (fun id hid => hreg id (List.mem_cons_of_mem _ hid)) st1 err

/-! ## The ordering: main results -/

theorem acyclic_of_rank (tasks : GoMap Task) (rank : String → Nat)
    (h : ∀ id t, mapGet tasks id = some t → ∀ d ∈ t.DependsOn, rank d < rank id) :
    Acyclic tasks := by
  have key : ∀ a b, Relation.TransGen (DependsEdge tasks) a b → rank b < rank a := by
    intro a b hab
    induction hab with
    | single hedge =>
      obtain ⟨t, ht, hd⟩ := hedge
      exact h _ t ht _ hd
    | tail _ hedge ih =>
      obtain ⟨t, ht, hd⟩ := hedge
      exact lt_trans (h _ t ht _ hd) ih
  intro id hid
  exact lt_irrefl _ (key id id hid)

theorem buildExecutionOrder_returns (tasks : GoMap Task) (iter : List String) (fuel : Nat)
    (hiter : ∀ id ∈ iter, Registered tasks id) (hacyc : Acyclic tasks)
    (hfuel : tasks.length ≤ fuel) : buildExecutionOrder tasks iter fuel ≠ none := by
  have h := visitAll_terminates tasks hacyc fuel hfuel iter hiter { visited := [], order := [] }
  unfold buildExecutionOrder
  cases hv : visitAll tasks fuel iter { visited := [], order := [] } with
  | none => exact absurd hv h
  | some r => cases r <;> simp

theorem buildExecutionOrder_sound (tasks : GoMap Task) (iter : List String) (fuel : Nat)
    (order : List String) (hiter : ∀ id, Registered tasks id → id ∈ iter)
    (h : buildExecutionOrder tasks iter fuel = some (.ok order)) :
    order.Nodup ∧ DepsBefore tasks order ∧ ∀ id ∈ iter, id ∈ order := by
  unfold buildExecutionOrder at h
  cases hv : visitAll tasks fuel iter { visited := [], order := [] } with
  | none => simp [hv] at h
  | some r =>
    cases r with
    | error err => simp [hv] at h
    | ok st =>
      simp only [hv, Option.some.injEq, Except.ok.injEq] at h
      subst h
      obtain ⟨hinv, hmem, _⟩ :=
        visitAll_sound tasks fuel iter _ st (visitInv_init tasks) hv
      have hacyc : Acyclic tasks :=
        depsBefore_acyclic hinv.before (fun id hid => hmem id (hiter id hid))
      have hnd := (visitAll_nodup tasks hacyc fuel iter _ st
        ⟨visitInv_init tasks, List.nodup_nil⟩ hv).2
      exact ⟨hnd, hinv.before, hmem⟩

theorem buildExecutionOrder_no_error (tasks : GoMap Task) (iter : List String) (fuel : Nat)
    (hiter : ∀ id ∈ iter, Registered tasks id) (hdeps : DepsRegistered tasks) (err : String) :
    buildExecutionOrder tasks iter fuel ≠ some (.error err) := by
  have h := visitAll_no_error tasks hdeps fuel iter hiter { visited := [], order := [] }
  unfold buildExecutionOrder
  cases hv : visitAll tasks fuel iter { visited := [], order := [] } with
  | none => simp
  | some r =>
    cases r with
    | error err' => exact absurd hv (h err')
    | ok st => simp

theorem registered_of_perm {tasks : GoMap Task} {iter : List String}
    (hiter : iter.Perm (mapKeys tasks)) (id : String) :
    id ∈ iter ↔ Registered tasks id := by
  rw [registered_iff_mem_keys]
  exact hiter.mem_iff

/-- C1: when every dependency identifier is registered and the dependency relation is
acyclic, `buildExecutionOrder` returns without error (recursion depth equal to the number
of tasks is enough), whatever order `range` enumerates the task map in; the returned
sequence has no repetition, holds exactly the registered identifiers, each exactly once,
and every dependency of a task stands before every occurrence of that task. -/
theorem buildExecutionOrder_topological (tasks : GoMap Task) (iter : List String) (fuel : Nat)
    (hiter : iter.Perm (mapKeys tasks)) (hdeps : DepsRegistered tasks)
    (hacyc : Acyclic tasks) (hfuel : tasks.length ≤ fuel) :
    ∃ order, buildExecutionOrder tasks iter fuel = some (.ok order) ∧
      order.Nodup ∧ (∀ id, id ∈ order ↔ Registered tasks id) ∧
      (∀ id, Registered tasks id → order.count id = 1) ∧
      ∀ id t, mapGet tasks id = some t → ∀ d ∈ t.DependsOn,
        ∀ pre post, order = pre ++ id :: post → d ∈ pre := by
  have hreg : ∀ id ∈ iter, Registered tasks id := fun id hid =>
    (registered_of_perm hiter id).mp hid
  have hret := buildExecutionOrder_returns tasks iter fuel hreg hacyc hfuel
  cases hb : buildExecutionOrder tasks iter fuel with
  | none => exact absurd hb hret
  | some r =>
    cases r with
    | error err => exact absurd hb (buildExecutionOrder_no_error tasks iter fuel hreg hdeps err)
    | ok order =>
      obtain ⟨hnd, hbefore, hmem⟩ := buildExecutionOrder_sound tasks iter fuel order
        (fun id hid => (registered_of_perm hiter id).mpr hid) hb
      have hiff : ∀ id, id ∈ order ↔ Registered tasks id := fun id =>
        ⟨fun h => depsBefore_registered hbefore h,
         fun h => hmem id ((registered_of_perm hiter id).mpr h)⟩
      refine ⟨order, rfl, hnd, hiff, ?_, ?_⟩
      · intro id hid
        exact List.count_eq_one_of_mem hnd ((hiff id).mpr hid)
      · intro id t ht d hd pre post hsplit
        obtain ⟨t', ht', hpre⟩ := hbefore pre id post hsplit
        rw [ht] at ht'
        cases ht'
        exact hpre d hd

theorem sampleTasksBA_acyclic : Acyclic sampleTasksBA := by
  apply acyclic_of_rank sampleTasksBA (fun s => if s = "b" then 1 else 0)
  intro id t ht d hd
  simp only [sampleTasksBA, sampleMap, List.map, sampleTask, mapGet] at ht
  split at ht
  · cases ht
    next h =>
      subst h
      simp at hd
      subst hd
      decide
  · split at ht
    · cases ht
      simp at hd
    · cases ht

theorem sampleTasksBA_depsRegistered : DepsRegistered sampleTasksBA := by
  intro id t ht d hd
  simp only [sampleTasksBA, sampleMap, List.map, sampleTask, mapGet] at ht
  split at ht
  · cases ht
    simp at hd
    subst hd
    exact ⟨sampleTask "a" 0 [], by decide⟩
  · split at ht
    · cases ht
      simp at hd
    · cases ht

/-- Witness for C1: tasks `b` (depending on `a`) and `a`, enumerated as `b`, `a`. -/
theorem buildExecutionOrder_topological_witness :
    ∃ order, buildExecutionOrder sampleTasksBA ["b", "a"] 2 = some (.ok order) ∧
      order.Nodup ∧ (∀ id, id ∈ order ↔ Registered sampleTasksBA id) ∧
      (∀ id, Registered sampleTasksBA id → order.count id = 1) ∧
      ∀ id t, mapGet sampleTasksBA id = some t → ∀ d ∈ t.DependsOn,
        ∀ pre post, order = pre ++ id :: post → d ∈ pre :=
  buildExecutionOrder_topological sampleTasksBA ["b", "a"] 2 (List.Perm.refl _)
    sampleTasksBA_depsRegistered sampleTasksBA_acyclic (by decide)

/-! ## Machine integers: lemmas -/

theorem wrapInt_of_inRange (x : Int) (hlo : -(2 ^ 63) ≤ x) (hhi : x ≤ maxInt) :
    wrapInt x = x := by
  unfold wrapInt
  unfold maxInt at hhi
  omega

/-! ## Execution of one task: lemmas -/

theorem executeCommand_frame (t : Task) (deadline : Option Int) (result : TaskResult)
    (w : World) :
    (t.executeCommand deadline result w).2.1.ID = t.ID ∧
    (t.executeCommand deadline result w).2.1.RetryCount = t.RetryCount ∧
    (t.executeCommand deadline result w).2.1.DependsOn = t.DependsOn ∧
    (t.executeCommand deadline result w).2.2.executed = w.executed ∧
    (t.executeCommand deadline result w).2.2.sleeps = w.sleeps ∧
    (t.executeCommand deadline result w).1.Task = result.Task := by
  unfold Task.executeCommand
  simp only [World.run]
  split
  · split <;> simp
  · split
    · simp
    · split <;> simp

theorem execute_frame (t : Task) (w : World) :
    (t.Execute w).2.1.ID = t.ID ∧
    (t.Execute w).2.1.RetryCount = t.RetryCount ∧
    (t.Execute w).2.1.DependsOn = t.DependsOn ∧
    (t.Execute w).2.2.executed = w.executed ++ [t.ID] ∧
    (t.Execute w).2.2.sleeps = w.sleeps ∧
    (t.Execute w).1.Task = t.ID := by
  unfold Task.Execute
  simp only
  split
  · simpa using executeCommand_frame _ _ _ _
  · split
    · simpa [Task.executeScript] using executeCommand_frame _ _ _ _
    · split <;> simp [Task.executeHTTP]

/-! ## Retrying -/

theorem afterFailures_succ (n : Nat) (task : Task) (w : World) :
    afterFailures (n + 1) task w =
      afterFailures n (task.Execute w).2.1
        { (task.Execute w).2.2 with sleeps := (task.Execute w).2.2.sleeps + 1 } := rfl

theorem attemptResult_succ (n : Nat) (task : Task) (w : World) :
    attemptResult (n + 1) task w =
      attemptResult n (task.Execute w).2.1
        { (task.Execute w).2.2 with sleeps := (task.Execute w).2.2.sleeps + 1 } := rfl

theorem attemptResult_zero (task : Task) (w : World) :
    attemptResult 0 task w = task.Execute w := rfl

theorem retryLoop_succ (maxAttempts : Int) (fuel : Nat) (attempt : Int)
    (result : Option TaskResult) (task : Task) (w : World) :
    retryLoop maxAttempts (fuel + 1) attempt result task w =
      if attempt ≤ maxAttempts then
        if (task.Execute w).1.Success = true then
          some (some (task.Execute w).1, (task.Execute w).2.1, (task.Execute w).2.2)
        else
          retryLoop maxAttempts fuel (wrapInt (attempt + 1)) (some (task.Execute w).1)
            (task.Execute w).2.1
            (if attempt < maxAttempts then
              { (task.Execute w).2.2 with sleeps := (task.Execute w).2.2.sleeps + 1 }
             else (task.Execute w).2.2)
      else some (result, task, w) := rfl

theorem retryLoop_success (maxAttempts : Int) (hmax : maxAttempts ≤ maxInt) :
    ∀ (m fuel : Nat) (attempt : Int) (result : Option TaskResult) (task : Task) (w : World),
      1 ≤ attempt → attempt + m ≤ maxAttempts → m < fuel →
      (∀ j < m, (attemptResult j task w).1.Success = false) →
      (attemptResult m task w).1.Success = true →
      retryLoop maxAttempts fuel attempt result task w =
        some (some (attemptResult m task w).1, (attemptResult m task w).2.1,
          (attemptResult m task w).2.2) := by
  intro m
  induction m with
  | zero =>
    intro fuel attempt result task w h1 hle hfuel _ hsucc
    obtain ⟨f, rfl⟩ : ∃ f, fuel = f + 1 := ⟨fuel - 1, by omega⟩
    rw [retryLoop_succ, if_pos (by simpa using hle)]
    rw [attemptResult_zero] at hsucc ⊢
    rw [if_pos hsucc]
  | succ m ih =>
    intro fuel attempt result task w h1 hle hfuel hfail hsucc
    obtain ⟨f, rfl⟩ : ∃ f, fuel = f + 1 := ⟨fuel - 1, by omega⟩
    have hlt : attempt < maxAttempts := by push_cast at hle; omega
    have h0 : (task.Execute w).1.Success = false := by
      have := hfail 0 (Nat.succ_pos m)
      rwa [attemptResult_zero] at this
    rw [retryLoop_succ, if_pos (le_of_lt hlt), if_neg (by simp [h0]), if_pos hlt]
    have hw : wrapInt (attempt + 1) = attempt + 1 := by
      apply wrapInt_of_inRange <;> omega
    rw [hw, attemptResult_succ]
    apply ih
    · omega
    · push_cast at hle; omega
    · omega
    · intro j hj
      have := hfail (j + 1) (Nat.succ_lt_succ hj)
      rwa [attemptResult_succ] at this
    · rwa [attemptResult_succ] at hsucc

theorem retryLoop_failure (maxAttempts : Int) (hmax : maxAttempts + 1 ≤ maxInt) :
    ∀ (m fuel : Nat) (attempt : Int) (result : Option TaskResult) (task : Task) (w : World),
      1 ≤ attempt → attempt + m = maxAttempts → m + 1 < fuel →
      (∀ j ≤ m, (attemptResult j task w).1.Success = false) →
      retryLoop maxAttempts fuel attempt result task w =
        some (some (attemptResult m task w).1, (attemptResult m task w).2.1,
          (attemptResult m task w).2.2) := by
  intro m
  induction m with
  | zero =>
    intro fuel attempt result task w h1 hle hfuel hfail
    obtain ⟨f, rfl⟩ : ∃ f, fuel = f + 2 := ⟨fuel - 2, by omega⟩
    have heq : attempt = maxAttempts := by simpa using hle
    have h0 : (task.Execute w).1.Success = false := by
      have := hfail 0 (Nat.le_refl 0)
      rwa [attemptResult_zero] at this
    have hw : wrapInt (attempt + 1) = attempt + 1 := by
      apply wrapInt_of_inRange <;> omega
    rw [retryLoop_succ, if_pos (le_of_eq heq), if_neg (by simp [h0]),
      if_neg (by omega), hw, retryLoop_succ, if_neg (by omega), attemptResult_zero]
  | succ m ih =>
    intro fuel attempt result task w h1 hle hfuel hfail
    obtain ⟨f, rfl⟩ : ∃ f, fuel = f + 1 := ⟨fuel - 1, by omega⟩
    have hlt : attempt < maxAttempts := by push_cast at hle; omega
    have h0 : (task.Execute w).1.Success = false := by
      have := hfail 0 (Nat.zero_le _)
      rwa [attemptResult_zero] at this
    rw [retryLoop_succ, if_pos (le_of_lt hlt), if_neg (by simp [h0]), if_pos hlt]
    have hw : wrapInt (attempt + 1) = attempt + 1 := by
      apply wrapInt_of_inRange <;> omega
    rw [hw, attemptResult_succ]
    apply ih
    · omega
    · push_cast at hle; omega
    · omega
    · intro j hj
      have := hfail (j + 1) (Nat.succ_le_succ hj)
      rwa [attemptResult_succ] at this

theorem afterFailures_frame (n : Nat) :
    ∀ (task : Task) (w : World),
      (afterFailures n task w).1.ID = task.ID ∧
      (afterFailures n task w).1.RetryCount = task.RetryCount ∧
      (afterFailures n task w).1.DependsOn = task.DependsOn ∧
      (afterFailures n task w).2.executed = w.executed ++ List.replicate n task.ID ∧
      (afterFailures n task w).2.sleeps = w.sleeps + n := by
  induction n with
  | zero => intro task w; simp [afterFailures]
  | succ n ih =>
    intro task w
    rw [afterFailures_succ]
    obtain ⟨h1, h2, h3, h4, h5⟩ := ih (task.Execute w).2.1
      { (task.Execute w).2.2 with sleeps := (task.Execute w).2.2.sleeps + 1 }
    obtain ⟨e1, e2, e3, e4, e5, _⟩ := execute_frame task w
    refine ⟨h1.trans e1, h2.trans e2, h3.trans e3, ?_, ?_⟩
    · rw [h4, e1]
      simp only [e4, List.append_assoc, List.replicate_succ, List.singleton_append]
    · rw [h5]
      simp only [e5]
      omega

theorem attemptResult_frame (n : Nat) (task : Task) (w : World) :
    (attemptResult n task w).2.1.ID = task.ID ∧
    (attemptResult n task w).2.1.RetryCount = task.RetryCount ∧
    (attemptResult n task w).2.1.DependsOn = task.DependsOn ∧
    (attemptResult n task w).2.2.executed = w.executed ++ List.replicate (n + 1) task.ID ∧
    (attemptResult n task w).2.2.sleeps = w.sleeps + n ∧
    (attemptResult n task w).1.Task = task.ID := by
  obtain ⟨h1, h2, h3, h4, h5⟩ := afterFailures_frame n task w
  obtain ⟨e1, e2, e3, e4, e5, e6⟩ :=
    execute_frame (afterFailures n task w).1 (afterFailures n task w).2
  unfold attemptResult
  refine ⟨e1.trans h1, e2.trans h2, e3.trans h3, ?_, e5.trans h5, e6.trans h1⟩
  rw [e4, h4, h1, List.append_assoc, ← List.replicate_succ']

/-- Retry counts in range.  For a task whose retry count `r` satisfies `0 ≤ r` and
`r + 1 ≤ maxInt`, `executeWithRetry` makes one `Execute` call per attempt and stops at the
first success: if attempt `k + 1 ≤ r + 1` is the first to succeed, the call returns the
result of that attempt after exactly `k + 1` calls of `Execute`.  If moreover
`r + 2 ≤ maxInt` and none of the first `r + 1` attempts succeeds, it returns the
unsuccessful result of attempt `r + 1` after exactly `r + 1` calls of `Execute`. -/
theorem executeWithRetry_attempts (task : Task) (w : World) (fuel : Nat)
    (hr0 : 0 ≤ task.RetryCount) (hr1 : task.RetryCount + 1 ≤ maxInt) :
    (∀ k : Nat, (k : Int) ≤ task.RetryCount → k < fuel →
      (∀ j < k, (attemptResult j task w).1.Success = false) →
      (attemptResult k task w).1.Success = true →
      executeWithRetry fuel task w =
          some (some (attemptResult k task w).1, (attemptResult k task w).2.1,
            (attemptResult k task w).2.2) ∧
        (attemptResult k task w).2.2.executed = w.executed ++ List.replicate (k + 1) task.ID) ∧
    (task.RetryCount + 2 ≤ maxInt →
      ∀ n : Nat, (n : Int) = task.RetryCount → n + 1 < fuel →
      (∀ j ≤ n, (attemptResult j task w).1.Success = false) →
      executeWithRetry fuel task w =
          some (some (attemptResult n task w).1, (attemptResult n task w).2.1,
            (attemptResult n task w).2.2) ∧
        (attemptResult n task w).1.Success = false ∧
        (attemptResult n task w).2.2.executed = w.executed ++ List.replicate (n + 1) task.ID) := by
  have hmax : wrapInt (task.RetryCount + 1) = task.RetryCount + 1 := by
    apply wrapInt_of_inRange <;> omega
  constructor
  · intro k hk hfuel hfail hsucc
    refine ⟨?_, (attemptResult_frame k task w).2.2.2.1⟩
    unfold executeWithRetry
    rw [hmax]
    exact retryLoop_success _ (by omega) k fuel 1 none task w (le_refl 1) (by omega) hfuel
      hfail hsucc
  · intro hr2 n hn hfuel hfail
    refine ⟨?_, hfail n (le_refl n), (attemptResult_frame n task w).2.2.2.1⟩
    unfold executeWithRetry
    rw [hmax]
    exact retryLoop_failure _ (by omega) n fuel 1 none task w (le_refl 1) (by omega) hfuel hfail

/-- Two instances: a task with retry count 2 whose process always fails is attempted three
times, and one whose process succeeds is attempted once. -/
theorem executeWithRetry_attempts_instances :
    (0 ≤ (sampleTask "a" 2 []).RetryCount ∧ (sampleTask "a" 2 []).RetryCount + 2 ≤ maxInt) ∧
    (executeWithRetry 4 (sampleTask "a" 2 []) failWorld =
        some (some (attemptResult 2 (sampleTask "a" 2 []) failWorld).1,
          (attemptResult 2 (sampleTask "a" 2 []) failWorld).2.1,
          (attemptResult 2 (sampleTask "a" 2 []) failWorld).2.2) ∧
      (attemptResult 2 (sampleTask "a" 2 []) failWorld).1.Success = false ∧
      (attemptResult 2 (sampleTask "a" 2 []) failWorld).2.2.executed =
        failWorld.executed ++ List.replicate 3 "a") ∧
    (executeWithRetry 4 (sampleTask "a" 2 []) okWorld =
        some (some (attemptResult 0 (sampleTask "a" 2 []) okWorld).1,
          (attemptResult 0 (sampleTask "a" 2 []) okWorld).2.1,
          (attemptResult 0 (sampleTask "a" 2 []) okWorld).2.2) ∧
      (attemptResult 0 (sampleTask "a" 2 []) okWorld).2.2.executed =
        okWorld.executed ++ List.replicate 1 "a") :=
  ⟨⟨by decide, by decide⟩,
   (executeWithRetry_attempts (sampleTask "a" 2 []) failWorld 4 (by decide) (by decide)).2
     (by decide) 2 rfl (by decide) (by intro j hj; interval_cases j <;> rfl),
   (executeWithRetry_attempts (sampleTask "a" 2 []) okWorld 4 (by decide) (by decide)).1 0
     (by decide) (by decide) (by intro j hj; omega) rfl⟩

/-! ## Running: what a step leaves unchanged -/

theorem sameConfig_refl (t : Task) : SameConfig t t := ⟨rfl, rfl, rfl⟩

theorem sameConfig_trans {t₁ t₂ t₃ : Task} (h₁ : SameConfig t₁ t₂) (h₂ : SameConfig t₂ t₃) :
    SameConfig t₁ t₃ :=
  ⟨h₂.1.trans h₁.1, h₂.2.1.trans h₁.2.1, h₂.2.2.trans h₁.2.2⟩

theorem tasksEquiv_refl (e : Executor) : TasksEquiv e e := by
  intro k
  cases h : mapGet e.tasks k with
  | none => exact Or.inl ⟨rfl, rfl⟩
  | some t => exact Or.inr ⟨t, t, rfl, rfl, sameConfig_refl t⟩

theorem tasksEquiv_trans {e₁ e₂ e₃ : Executor} (h₁ : TasksEquiv e₁ e₂) (h₂ : TasksEquiv e₂ e₃) :
    TasksEquiv e₁ e₃ := by
  intro k
  rcases h₁ k with ⟨a, b⟩ | ⟨t, t', a, b, c⟩
  · rcases h₂ k with ⟨_, d⟩ | ⟨u, u', d, _, _⟩
    · exact Or.inl ⟨a, d⟩
    · rw [b] at d; cases d
  · rcases h₂ k with ⟨d, _⟩ | ⟨u, u', d, f, g⟩
    · rw [b] at d; cases d
    · rw [b] at d
      cases d
      exact Or.inr ⟨t, u', a, f, sameConfig_trans c g⟩

theorem tasksEquiv_get {e e' : Executor} (h : TasksEquiv e e') {k : String} {t : Task}
    (ht : mapGet e.tasks k = some t) : ∃ t', mapGet e'.tasks k = some t' ∧ SameConfig t t' := by
  rcases h k with ⟨a, _⟩ | ⟨u, u', a, b, c⟩
  · rw [ht] at a; cases a
  · rw [ht] at a
    cases a
    exact ⟨u', b, c⟩

theorem tasksEquiv_get_back {e e' : Executor} (h : TasksEquiv e e') {k : String} {t' : Task}
    (ht : mapGet e'.tasks k = some t') : ∃ t, mapGet e.tasks k = some t ∧ SameConfig t t' := by
  rcases h k with ⟨_, b⟩ | ⟨u, u', a, b, c⟩
  · rw [ht] at b; cases b
  · rw [ht] at b
    cases b
    exact ⟨u, a, c⟩

theorem tasksEquiv_wellFormed {e e' : Executor} (h : TasksEquiv e e') (hwf : e.WellFormed) :
    e'.WellFormed := by
  intro k t' ht'
  obtain ⟨t, ht, hc⟩ := tasksEquiv_get_back h ht'
  exact hc.1.trans (hwf k t ht)

theorem tasksEquiv_record (e : Executor) (k : String) (t t' : Task)
    (result : Option TaskResult) (ht : mapGet e.tasks k = some t)
    (hc : SameConfig t t') : TasksEquiv e (e.record k t' result) := by
  intro k'
  by_cases hk : k = k'
  · subst hk
    exact Or.inr ⟨t, t', ht, mapGet_mapSet_self _ _ _, hc⟩
  · have h1 : mapGet (mapSet e.tasks k t') k' = mapGet e.tasks k' :=
      mapGet_mapSet_of_ne _ _ _ _ hk
    cases h : mapGet e.tasks k' with
    | none => exact Or.inl ⟨rfl, by simpa [h] using h1⟩
    | some u => exact Or.inr ⟨u, u, rfl, by simpa [h] using h1, sameConfig_refl u⟩

theorem retryLoop_frame (maxAttempts : Int) :
    ∀ (fuel : Nat) (attempt : Int) (result : Option TaskResult) (task : Task) (w : World)
      (res : Option TaskResult) (task' : Task) (w' : World),
      retryLoop maxAttempts fuel attempt result task w = some (res, task', w') →
      SameConfig task task' ∧ ∃ n, w'.executed = w.executed ++ List.replicate n task.ID := by
  intro fuel
  induction fuel with
  | zero => intro attempt result task w res task' w' h; simp [retryLoop] at h
  | succ fuel ih =>
    intro attempt result task w res task' w' h
    rw [retryLoop_succ] at h
    obtain ⟨e1, e2, e3, e4, _, _⟩ := execute_frame task w
    by_cases hle : attempt ≤ maxAttempts
    · rw [if_pos hle] at h
      by_cases hs : (task.Execute w).1.Success = true
      · rw [if_pos hs] at h
        simp only [Option.some.injEq, Prod.mk.injEq] at h
        obtain ⟨_, h2, h3⟩ := h
        subst h2 h3
        exact ⟨⟨e1, e2, e3⟩, 1, by simp [e4]⟩
      · rw [if_neg hs] at h
        obtain ⟨hc, n, hn⟩ := ih _ _ _ _ _ _ _ h
        refine ⟨sameConfig_trans ⟨e1, e2, e3⟩ hc, n + 1, ?_⟩
        rw [hn, e1]
        have : (if attempt < maxAttempts then
            { (task.Execute w).2.2 with sleeps := (task.Execute w).2.2.sleeps + 1 }
          else (task.Execute w).2.2).executed = (task.Execute w).2.2.executed := by
          split <;> rfl
        rw [this, e4, List.append_assoc, List.replicate_succ]
        rfl
    · rw [if_neg hle] at h
      simp only [Option.some.injEq, Prod.mk.injEq] at h
      obtain ⟨_, h2, h3⟩ := h
      subst h2 h3
      exact ⟨sameConfig_refl _, 0, by simp⟩

theorem executeWithRetry_frame (fuel : Nat) (task : Task) (w : World)
    (res : Option TaskResult) (task' : Task) (w' : World)
    (h : executeWithRetry fuel task w = some (res, task', w')) :
    SameConfig task task' ∧ ∃ n, w'.executed = w.executed ++ List.replicate n task.ID :=
  retryLoop_frame _ fuel 1 none task w res task' w' h

/-- What one pass through the loop body of `ExecuteAll` leaves unchanged. -/
theorem runTask_frame (fuel : Nat) (id : String) (e : Executor) (w : World)
    (o : Option (Outcome (Option String))) (e' : Executor) (w' : World)
    (h : runTask fuel id e w = some (o, e', w')) :
    TasksEquiv e e' ∧
    (∀ k, k ≠ id → mapGet e'.tasks k = mapGet e.tasks k) ∧
    (∀ k, k ≠ id → mapGet e'.results k = mapGet e.results k) ∧
    ∃ log, w'.executed = w.executed ++ log ∧
      ∀ x ∈ log, ∃ t, mapGet e.tasks id = some t ∧ x = t.ID := by
  unfold runTask at h
  cases ht : mapGet e.tasks id with
  | none =>
    simp only [ht, Option.some.injEq, Prod.mk.injEq] at h
    obtain ⟨_, h2, h3⟩ := h
    subst h2 h3
    exact ⟨tasksEquiv_refl _, fun _ _ => rfl, fun _ _ => rfl, [], by simp, by simp⟩
  | some task =>
    simp only [ht] at h
    cases hc : e.checkDependencies task with
    | none =>
      simp only [hc, Option.some.injEq, Prod.mk.injEq] at h
      obtain ⟨_, h2, h3⟩ := h
      subst h2 h3
      exact ⟨tasksEquiv_refl _, fun _ _ => rfl, fun _ _ => rfl, [], by simp, by simp⟩
    | some b =>
      cases b with
      | false =>
        simp only [hc, Option.some.injEq, Prod.mk.injEq] at h
        obtain ⟨_, h2, h3⟩ := h
        subst h2 h3
        refine ⟨tasksEquiv_record e id task _ _ ht ⟨rfl, rfl, rfl⟩, ?_, ?_, [], by simp, by simp⟩
        · intro k hk
          exact mapGet_mapSet_of_ne _ _ _ _ (Ne.symm hk)
        · intro k hk
          exact mapGet_mapSet_of_ne _ _ _ _ (Ne.symm hk)
      | true =>
        simp only [hc] at h
        cases hx : executeWithRetry fuel task w with
        | none => simp [hx] at h
        | some p =>
          obtain ⟨res, task', w1⟩ := p
          obtain ⟨hcfg, n, hn⟩ := executeWithRetry_frame fuel task w res task' w1 hx
          have hlog : ∃ log, w1.executed = w.executed ++ log ∧
              ∀ x ∈ log, ∃ t, some task = some t ∧ x = t.ID :=
            ⟨List.replicate n task.ID, hn, fun x hx' =>
              ⟨task, rfl, List.eq_of_mem_replicate hx'⟩⟩
          simp only [hx] at h
          cases res with
          | none =>
            simp only [Option.some.injEq, Prod.mk.injEq] at h
            obtain ⟨_, h2, h3⟩ := h
            subst h2 h3
            refine ⟨tasksEquiv_record e id task _ _ ht hcfg, ?_, ?_, hlog⟩
            · intro k hk
              exact mapGet_mapSet_of_ne _ _ _ _ (Ne.symm hk)
            · intro k hk
              exact mapGet_mapSet_of_ne _ _ _ _ (Ne.symm hk)
          | some r =>
            simp only [Option.some.injEq, Prod.mk.injEq] at h
            obtain ⟨_, h2, h3⟩ := h
            subst h2 h3
            refine ⟨tasksEquiv_record e id task _ _ ht hcfg, ?_, ?_, hlog⟩
            · intro k hk
              exact mapGet_mapSet_of_ne _ _ _ _ (Ne.symm hk)
            · intro k hk
              exact mapGet_mapSet_of_ne _ _ _ _ (Ne.symm hk)

/-! ## Running: the loop -/

theorem runTask_exit_ne (fuel : Nat) (id : String) (e : Executor) (w : World)
    (out : Outcome (Option String)) (e' : Executor) (w' : World)
    (h : runTask fuel id e w = some (some out, e', w')) : out ≠ .returned none := by
  unfold runTask at h
  cases ht : mapGet e.tasks id with
  | none =>
    simp only [ht, Option.some.injEq, Prod.mk.injEq] at h
    obtain ⟨h1, _, _⟩ := h
    subst h1
    simp
  | some task =>
    simp only [ht] at h
    cases hc : e.checkDependencies task with
    | none =>
      simp only [hc, Option.some.injEq, Prod.mk.injEq] at h
      obtain ⟨h1, _, _⟩ := h
      subst h1
      simp
    | some b =>
      cases b with
      | false => simp [hc] at h
      | true =>
        simp only [hc] at h
        cases hx : executeWithRetry fuel task w with
        | none => simp [hx] at h
        | some p =>
          obtain ⟨res, task', w1⟩ := p
          simp only [hx] at h
          cases res with
          | none =>
            simp only [Option.some.injEq, Prod.mk.injEq] at h
            obtain ⟨h1, _, _⟩ := h
            subst h1
            simp
          | some r =>
            simp only [Option.some.injEq, Prod.mk.injEq] at h
            obtain ⟨h1, _, _⟩ := h
            split at h1
            · simp only [Option.some.injEq] at h1
              subst h1
              simp
            · cases h1

theorem runOrder_cons (fuel : Nat) (id : String) (rest : List String) (e : Executor)
    (w : World) :
    runOrder fuel (id :: rest) e w =
      match runTask fuel id e w with
      | none => none
      | some (some out, e', w') => some (out, e', w')
      | some (none, e', w') => runOrder fuel rest e' w' := rfl

theorem runOrder_append (fuel : Nat) :
    ∀ (pre rest : List String) (e : Executor) (w : World) (e1 : Executor) (w1 : World),
      runOrder fuel pre e w = some (.returned none, e1, w1) →
      runOrder fuel (pre ++ rest) e w = runOrder fuel rest e1 w1 := by
  intro pre
  induction pre with
  | nil =>
    intro rest e w e1 w1 h
    simp only [runOrder, Option.some.injEq, Prod.mk.injEq, true_and] at h
    obtain ⟨h1, h2⟩ := h
    subst h1 h2
    rfl
  | cons id pre ih =>
    intro rest e w e1 w1 h
    rw [List.cons_append, runOrder_cons]
    rw [runOrder_cons] at h
    cases hs : runTask fuel id e w with
    | none => simp [hs] at h
    | some p =>
      obtain ⟨o, e2, w2⟩ := p
      cases o with
      | some out =>
        simp only [hs, Option.some.injEq, Prod.mk.injEq] at h
        exact absurd h.1 (runTask_exit_ne fuel id e w out e2 w2 hs)
      | none =>
        simp only [hs] at h ⊢
        exact ih rest e2 w2 e1 w1 h

/-- What the loop of `ExecuteAll` over `ids` leaves unchanged. -/
theorem runOrder_frame (fuel : Nat) :
    ∀ (ids : List String) (e : Executor) (w : World) (out : Outcome (Option String))
      (e' : Executor) (w' : World), e.WellFormed →
      runOrder fuel ids e w = some (out, e', w') →
      TasksEquiv e e' ∧
      (∀ k, k ∉ ids → mapGet e'.tasks k = mapGet e.tasks k) ∧
      (∀ k, k ∉ ids → mapGet e'.results k = mapGet e.results k) ∧
      ∃ log, w'.executed = w.executed ++ log ∧ ∀ x ∈ log, x ∈ ids := by
  intro ids
  induction ids with
  | nil =>
    intro e w out e' w' _ h
    simp only [runOrder, Option.some.injEq, Prod.mk.injEq] at h
    obtain ⟨_, h1, h2⟩ := h
    subst h1 h2
    exact ⟨tasksEquiv_refl _, fun _ _ => rfl, fun _ _ => rfl, [], by simp, by simp⟩
  | cons id ids ih =>
    intro e w out e' w' hwf h
    rw [runOrder_cons] at h
    cases hs : runTask fuel id e w with
    | none => simp [hs] at h
    | some p =>
      obtain ⟨o, e2, w2⟩ := p
      obtain ⟨heq, htk, hrs, log, hlog, hmem⟩ := runTask_frame fuel id e w o e2 w2 hs
      have hmem' : ∀ x ∈ log, x ∈ id :: ids := by
        intro x hx
        obtain ⟨t, ht, hxt⟩ := hmem x hx
        rw [hxt, hwf id t ht]
        exact List.mem_cons_self _ _
      cases o with
      | some out' =>
        simp only [hs, Option.some.injEq, Prod.mk.injEq] at h
        obtain ⟨_, h1, h2⟩ := h
        subst h1 h2
        refine ⟨heq, ?_, ?_, log, hlog, hmem'⟩
        · intro k hk
          exact htk k (fun hkid => hk (hkid ▸ List.mem_cons_self _ _))
        · intro k hk
          exact hrs k (fun hkid => hk (hkid ▸ List.mem_cons_self _ _))
      | none =>
        simp only [hs] at h
        obtain ⟨heq2, htk2, hrs2, log2, hlog2, hmem2⟩ :=
          ih e2 w2 out e' w' (tasksEquiv_wellFormed heq hwf) h
        refine ⟨tasksEquiv_trans heq heq2, ?_, ?_, log ++ log2, ?_, ?_⟩
        · intro k hk
          rw [htk2 k (fun hm => hk (List.mem_cons_of_mem _ hm))]
          exact htk k (fun hkid => hk (hkid ▸ List.mem_cons_self _ _))
        · intro k hk
          rw [hrs2 k (fun hm => hk (List.mem_cons_of_mem _ hm))]
          exact hrs k (fun hkid => hk (hkid ▸ List.mem_cons_self _ _))
        · rw [hlog2, hlog, List.append_assoc]
        · intro x hx
          rcases List.mem_append.mp hx with h1 | h1
          · exact hmem' x h1
          · exact List.mem_cons_of_mem _ (hmem2 x h1)

theorem executeWithRetry_single_failure (fuel : Nat) (task : Task) (w : World)
    (hretry : task.RetryCount = 0) (hfail : (task.Execute w).1.Success = false)
    (hfuel : 2 ≤ fuel) :
    executeWithRetry fuel task w =
      some (some (task.Execute w).1, (task.Execute w).2.1, (task.Execute w).2.2) := by
  unfold executeWithRetry
  rw [hretry]
  have h1 : wrapInt (0 + 1) = 1 := by decide
  rw [h1]
  have := retryLoop_failure 1 (by decide) 0 fuel 1 none task w (le_refl 1) (by simp)
    (by omega) (by
      intro j hj
      have : j = 0 := by omega
      subst this
      exact hfail)
  rw [this]
  rfl

theorem executeAll_eq_runOrder (e : Executor) (iter : List String) (fuel : Nat) (w : World)
    (order : List String) (id : String) (hid : Registered e.tasks id)
    (hord : buildExecutionOrder e.tasks iter fuel = some (.ok order)) :
    e.ExecuteAll iter fuel w = runOrder fuel order e w := by
  unfold Executor.ExecuteAll
  have hlen : ¬ e.tasks.length = 0 := by
    intro h0
    have : e.tasks = [] := List.length_eq_zero.mp h0
    obtain ⟨t, ht⟩ := hid
    rw [this] at ht
    simp [mapGet] at ht
  rw [if_neg hlen, hord]

theorem getResult_of_mapGet_some (e : Executor) (id : String) (r : Option TaskResult)
    (h : mapGet e.results id = some r) : e.GetResult id = (r, true) := by
  simp [Executor.GetResult, h]

theorem getResult_of_mapGet_none (e : Executor) (id : String)
    (h : mapGet e.results id = none) : e.GetResult id = (none, false) := by
  simp [Executor.GetResult, h]

/-- C3: on an executor with no recorded results, let the loop of `ExecuteAll` reach a task
`id` of the execution order (`hpre`) whose retry count is 0, let its dependency check
pass, so that it is executed (`hdeps`), and let its execution fail (`hfail`).  Then
`ExecuteAll` returns an error, `GetResult id` is the unsuccessful result of that execution,
and for every identifier after `id` in the execution order `GetResult` finds nothing and
`Execute` has not been called. -/
theorem executeAll_stops_at_failure (e : Executor) (iter : List String) (fuel : Nat)
    (w : World) (order pre post : List String) (id : String) (task : Task) (e1 : Executor)
    (w1 : World)
    (hwf : e.WellFormed) (hres : e.results = [])
    (hiter : iter.Perm (mapKeys e.tasks))
    (hord : buildExecutionOrder e.tasks iter fuel = some (.ok order))
    (hsplit : order = pre ++ id :: post)
    (hpre : runOrder fuel pre e w = some (.returned none, e1, w1))
    (htask : mapGet e1.tasks id = some task)
    (hretry : task.RetryCount = 0)
    (hdeps : e1.checkDependencies task = some true)
    (hfail : (task.Execute w1).1.Success = false)
    (hfuel : 2 ≤ fuel) :
    ∃ msg e',
      e.ExecuteAll iter fuel w = some (.returned (some msg), e', (task.Execute w1).2.2) ∧
      e'.GetResult id = (some (task.Execute w1).1, true) ∧
      (task.Execute w1).1.Success = false ∧
      (∀ id' ∈ post, e'.GetResult id' = (none, false)) ∧
      ∃ log, (task.Execute w1).2.2.executed = w.executed ++ log ∧ ∀ id' ∈ post, id' ∉ log := by
  obtain ⟨heq1, _, hrs1, log1, hlog1, hmem1⟩ :=
    runOrder_frame fuel pre e w _ e1 w1 hwf hpre
  obtain ⟨t0, ht0, _⟩ := tasksEquiv_get_back heq1 htask
  obtain ⟨hnd, _, _⟩ := buildExecutionOrder_sound e.tasks iter fuel order
    (fun k hk => (registered_of_perm hiter k).mpr hk) hord
  have hrun : e.ExecuteAll iter fuel w = runOrder fuel (id :: post) e1 w1 := by
    rw [executeAll_eq_runOrder e iter fuel w order id ⟨t0, ht0⟩ hord, hsplit]
    exact runOrder_append fuel pre (id :: post) e w e1 w1 hpre
  have hx := executeWithRetry_single_failure fuel task w1 hretry hfail hfuel
  have hretry' : (task.Execute w1).2.1.RetryCount = 0 :=
    (execute_frame task w1).2.1.trans hretry
  have hstep : runOrder fuel (id :: post) e1 w1 =
      some (.returned (some ("task " ++ id ++ " failed: " ++
          errorText (task.Execute w1).1.Error)),
        e1.record id (task.Execute w1).2.1 (some (task.Execute w1).1),
        (task.Execute w1).2.2) := by
    rw [runOrder_cons]
    simp only [runTask, htask, hdeps, hx, hfail, hretry']
    rfl
  rw [hsplit] at hnd
  have hnd' : (id :: post).Nodup := (List.nodup_append.mp hnd).2.1
  have hdisj : ∀ id' ∈ post, id' ∉ pre := fun id' hp hpre' =>
    (List.nodup_append.mp hnd).2.2 hpre' (List.mem_cons_of_mem _ hp)
  have hne : ∀ id' ∈ post, id ≠ id' := fun id' hp hh =>
    (List.nodup_cons.mp hnd').1 (hh ▸ hp)
  refine ⟨_, _, hrun.trans hstep, ?_, hfail, ?_, ?_⟩
  · exact getResult_of_mapGet_some _ _ _ (mapGet_mapSet_self _ _ _)
  · intro id' hp
    apply getResult_of_mapGet_none
    show mapGet (mapSet e1.results id _) id' = none
    rw [mapGet_mapSet_of_ne _ _ _ _ (hne id' hp), hrs1 id' (hdisj id' hp), hres]
    rfl
  · refine ⟨log1 ++ [id], ?_, ?_⟩
    · rw [(execute_frame task w1).2.2.2.1, hlog1, List.append_assoc,
        (tasksEquiv_wellFormed heq1 hwf) id task htask]
    · intro id' hp hm
      rcases List.mem_append.mp hm with h1 | h1
      · exact hdisj id' hp (hmem1 id' h1)
      · have hid' : id' = id := by simpa using h1
        exact hne id' hp hid'.symm

theorem sampleExecutor_wellFormed_ab :
    (sampleExecutor [sampleTask "a" 0 [], sampleTask "b" 0 ["a"]]).WellFormed := by
  intro k t ht
  simp only [sampleExecutor, sampleMap, List.map, sampleTask, mapGet] at ht
  split at ht
  · cases ht; assumption
  · split at ht
    · cases ht; assumption
    · cases ht

/-- Witness for C3: tasks `a` and `b`, where `b` depends on `a`, every process failing. -/
theorem executeAll_stops_at_failure_witness :
    ∃ msg e',
      (sampleExecutor [sampleTask "a" 0 [], sampleTask "b" 0 ["a"]]).ExecuteAll ["a", "b"] 2
          failWorld =
        some (.returned (some msg), e', ((sampleTask "a" 0 []).Execute failWorld).2.2) ∧
      e'.GetResult "a" = (some ((sampleTask "a" 0 []).Execute failWorld).1, true) ∧
      ((sampleTask "a" 0 []).Execute failWorld).1.Success = false ∧
      (∀ id' ∈ ["b"], e'.GetResult id' = (none, false)) ∧
      ∃ log, ((sampleTask "a" 0 []).Execute failWorld).2.2.executed =
        failWorld.executed ++ log ∧ ∀ id' ∈ ["b"], id' ∉ log :=
  executeAll_stops_at_failure (sampleExecutor [sampleTask "a" 0 [], sampleTask "b" 0 ["a"]])
    ["a", "b"] 2 failWorld ["a", "b"] [] ["b"] "a" (sampleTask "a" 0 [])
    (sampleExecutor [sampleTask "a" 0 [], sampleTask "b" 0 ["a"]]) failWorld
    sampleExecutor_wellFormed_ab rfl (List.Perm.refl _) rfl rfl rfl rfl rfl rfl rfl
    (by decide)

/-! ## Running: the dependency check and recorded results -/

theorem mapGet_record_results_self (e : Executor) (id : String) (t : Task)
    (r : Option TaskResult) : mapGet (e.record id t r).results id = some r :=
  mapGet_mapSet_self _ _ _

theorem mapGet_record_tasks_self (e : Executor) (id : String) (t : Task)
    (r : Option TaskResult) : mapGet (e.record id t r).tasks id = some t :=
  mapGet_mapSet_self _ _ _

theorem checkDependenciesLoop_false (results : GoMap (Option TaskResult)) :
    ∀ (deps : List String), (∀ d ∈ deps, mapGet results d ≠ some none) →
      (∃ d ∈ deps, ∃ r, mapGet results d = some (some r) ∧ r.Success = false) →
      checkDependenciesLoop results deps = some false := by
  intro deps
  induction deps with
  | nil => intro _ h; obtain ⟨d, hd, _⟩ := h; simp at hd
  | cons d rest ih =>
    intro hnil hbad
    simp only [checkDependenciesLoop]
    cases hd : mapGet results d with
    | none => rfl
    | some o =>
      cases o with
      | none => exact absurd hd (hnil d (List.mem_cons_self _ _))
      | some r =>
        simp only
        cases hs : r.Success with
        | false => simp
        | true =>
          simp only [Bool.not_true, Bool.false_eq_true, if_false]
          apply ih (fun d' hd' => hnil d' (List.mem_cons_of_mem _ hd'))
          obtain ⟨d', hd', r', hr', hs'⟩ := hbad
          rcases List.mem_cons.mp hd' with h1 | h1
          · subst h1
            rw [hd] at hr'
            cases hr'
            rw [hs] at hs'
            cases hs'
          · exact ⟨d', h1, r', hr', hs'⟩

theorem runTask_continue_result (fuel : Nat) (id : String) (e : Executor) (w : World)
    (e' : Executor) (w' : World) (h : runTask fuel id e w = some (none, e', w')) :
    ∃ r, mapGet e'.results id = some (some r) := by
  unfold runTask at h
  cases ht : mapGet e.tasks id with
  | none => simp [ht] at h
  | some task =>
    simp only [ht] at h
    cases hc : e.checkDependencies task with
    | none => simp [hc] at h
    | some b =>
      cases b with
      | false =>
        simp only [hc, Option.some.injEq, Prod.mk.injEq, true_and] at h
        obtain ⟨h1, _⟩ := h
        subst h1
        exact ⟨_, mapGet_record_results_self _ _ _ _⟩
      | true =>
        simp only [hc] at h
        cases hx : executeWithRetry fuel task w with
        | none => simp [hx] at h
        | some p =>
          obtain ⟨res, task', w1⟩ := p
          simp only [hx] at h
          cases res with
          | none => simp at h
          | some r =>
            simp only [Option.some.injEq, Prod.mk.injEq] at h
            obtain ⟨_, h1, _⟩ := h
            subst h1
            exact ⟨_, mapGet_record_results_self _ _ _ _⟩

/-- After the loop of `ExecuteAll` has gone through `ids` without leaving, every identifier
of `ids` has a non-nil recorded result. -/
theorem runOrder_results (fuel : Nat) :
    ∀ (ids : List String) (e : Executor) (w : World) (e' : Executor) (w' : World),
      runOrder fuel ids e w = some (.returned none, e', w') →
      ∀ k ∈ ids, ∃ r, mapGet e'.results k = some (some r) := by
  intro ids
  induction ids with
  | nil => intro e w e' w' _ k hk; simp at hk
  | cons id ids ih =>
    intro e w e' w' h k hk
    rw [runOrder_cons] at h
    cases hs : runTask fuel id e w with
    | none => simp [hs] at h
    | some p =>
      obtain ⟨o, e2, w2⟩ := p
      cases o with
      | some out =>
        simp only [hs, Option.some.injEq, Prod.mk.injEq] at h
        exact absurd h.1 (runTask_exit_ne fuel id e w out e2 w2 hs)
      | none =>
        simp only [hs] at h
        by_cases hmem : k ∈ ids
        · exact ih e2 w2 e' w' h k hmem
        · have hkid : k = id := by
            rcases List.mem_cons.mp hk with h1 | h1
            · exact h1
            · exact absurd h1 hmem
          subst hkid
          obtain ⟨r, hr⟩ := runTask_continue_result fuel k e w e2 w2 hs
          -- the later steps do not touch `k`
          have hfr : ∀ (l : List String) (ea : Executor) (wa : World) (eb : Executor)
              (wb : World), runOrder fuel l ea wa = some (.returned none, eb, wb) → k ∉ l →
              mapGet eb.results k = mapGet ea.results k := by
            intro l
            induction l with
            | nil =>
              intro ea wa eb wb hl _
              simp only [runOrder, Option.some.injEq, Prod.mk.injEq, true_and] at hl
              rw [hl.1]
            | cons x l ihl =>
              intro ea wa eb wb hl hk'
              rw [runOrder_cons] at hl
              cases hsx : runTask fuel x ea wa with
              | none => simp [hsx] at hl
              | some q =>
                obtain ⟨o', ec, wc⟩ := q
                cases o' with
                | some out' =>
                  simp only [hsx, Option.some.injEq, Prod.mk.injEq] at hl
                  exact absurd hl.1 (runTask_exit_ne fuel x ea wa out' ec wc hsx)
                | none =>
                  simp only [hsx] at hl
                  rw [ihl ec wc eb wb hl (fun hm => hk' (List.mem_cons_of_mem _ hm))]
                  exact (runTask_frame fuel x ea wa none ec wc hsx).2.2.1 k
                    (fun hkx => hk' (hkx ▸ List.mem_cons_self _ _))
          exact ⟨r, (hfr ids e2 w2 e' w' h hmem).trans hr⟩

theorem runTask_failure_continues (fuel : Nat) (id : String) (e : Executor) (w : World)
    (task : Task) (r : TaskResult) (task' : Task) (w' : World)
    (htask : mapGet e.tasks id = some task) (hdeps : e.checkDependencies task = some true)
    (hexec : executeWithRetry fuel task w = some (some r, task', w'))
    (hretry : task.RetryCount ≠ 0) :
    runTask fuel id e w = some (none, e.record id task' (some r), w') := by
  have hcfg := (executeWithRetry_frame fuel task w _ task' w' hexec).1
  have h0 : (task'.RetryCount == 0) = false := by
    rw [hcfg.2.1]
    simpa using hretry
  simp [runTask, htask, hdeps, hexec, h0]

theorem runTask_skip (fuel : Nat) (id : String) (e : Executor) (w : World) (task : Task)
    (htask : mapGet e.tasks id = some task) (hdeps : e.checkDependencies task = some false) :
    runTask fuel id e w =
      some (none,
        e.record id { task with Status := StatusSkipped } (some (skippedResult task)), w) := by
  simp [runTask, htask, hdeps]

/-- C4 (amended): let the loop of `ExecuteAll` reach a task `a` with retry count `> 0`
(`hpre`), let `a` be executed and let `executeWithRetry` return an unsuccessful result for
it; let the loop then reach a later task `b` that lists `a` as a dependency (`hmid`).  Then
the failure of `a` does not end the run: `ExecuteAll` goes on with the identifiers after
`a`; at `b` it records status skipped and an unsuccessful result with a non-nil error
without calling `Execute`, and goes on with the identifiers after `b`, whatever the retry
count of `b`.  Whenever `ExecuteAll` returns, `b` has status skipped, its recorded result
is unsuccessful with a non-nil error, and `Execute` has not been called on it. -/
theorem executeAll_skips_dependents (e : Executor) (iter : List String) (fuel : Nat)
    (w : World) (order pre mid post : List String) (a b : String) (ta ta' tb : Task)
    (r : TaskResult) (e1 e3 : Executor) (w1 w2 w3 : World)
    (hwf : e.WellFormed) (hiter : iter.Perm (mapKeys e.tasks))
    (hord : buildExecutionOrder e.tasks iter fuel = some (.ok order))
    (hsplit : order = pre ++ a :: (mid ++ b :: post))
    (hpre : runOrder fuel pre e w = some (.returned none, e1, w1))
    (hta : mapGet e1.tasks a = some ta) (hretry : 0 < ta.RetryCount)
    (hdeps : e1.checkDependencies ta = some true)
    (hexec : executeWithRetry fuel ta w1 = some (some r, ta', w2))
    (hfail : r.Success = false)
    (hmid : runOrder fuel mid (e1.record a ta' (some r)) w2 = some (.returned none, e3, w3))
    (htb : mapGet e3.tasks b = some tb) (hdep : a ∈ tb.DependsOn) :
    e.ExecuteAll iter fuel w =
        runOrder fuel (mid ++ b :: post) (e1.record a ta' (some r)) w2 ∧
    e.ExecuteAll iter fuel w =
        runOrder fuel post
          (e3.record b { tb with Status := StatusSkipped } (some (skippedResult tb))) w3 ∧
    ∀ out e' w', e.ExecuteAll iter fuel w = some (out, e', w') →
      (∃ tb', mapGet e'.tasks b = some tb' ∧ tb'.Status = StatusSkipped) ∧
      (∃ res, e'.GetResult b = (some res, true) ∧ res.Success = false ∧ res.Error ≠ none) ∧
      ∃ log, w'.executed = w.executed ++ log ∧ b ∉ log := by
  obtain ⟨hnd, hbefore, _⟩ := buildExecutionOrder_sound e.tasks iter fuel order
    (fun k hk => (registered_of_perm hiter k).mpr hk) hord
  -- the step at `a`
  have hstepA : runTask fuel a e1 w1 = some (none, e1.record a ta' (some r), w2) :=
    runTask_failure_continues fuel a e1 w1 ta r ta' w2 hta hdeps hexec (by omega)
  have hpa : runOrder fuel (pre ++ a :: mid) e w = some (.returned none, e3, w3) := by
    rw [runOrder_append fuel pre (a :: mid) e w e1 w1 hpre, runOrder_cons, hstepA]
    exact hmid
  obtain ⟨heq3, _, hrs3, log3, hlog3, hmem3⟩ :=
    runOrder_frame fuel (pre ++ a :: mid) e w _ e3 w3 hwf hpa
  obtain ⟨heq1, _, _, _, _, _⟩ := runOrder_frame fuel pre e w _ e1 w1 hwf hpre
  have hwf1 := tasksEquiv_wellFormed heq1 hwf
  have hwf2 : (e1.record a ta' (some r)).WellFormed :=
    tasksEquiv_wellFormed (tasksEquiv_record e1 a ta ta' (some r) hta
      (executeWithRetry_frame fuel ta w1 _ ta' w2 hexec).1) hwf1
  have hwf3 := tasksEquiv_wellFormed heq3 hwf
  obtain ⟨t0, ht0, hcfg0⟩ := tasksEquiv_get_back heq3 htb
  -- positions in the order
  have hsplit' : order = (pre ++ a :: mid) ++ b :: post := by rw [hsplit]; simp
  rw [hsplit'] at hnd
  have hnd1 := List.nodup_append.mp hnd
  have hb_pre : b ∉ pre ++ a :: mid := fun hm => hnd1.2.2 hm (List.mem_cons_self _ _)
  have hb_post : b ∉ post := (List.nodup_cons.mp hnd1.2.1).1
  have ha_mid : a ∉ mid := by
    have h1 := (List.nodup_append.mp hnd1.1).2.1
    exact (List.nodup_cons.mp h1).1
  -- the run as a whole
  have hrun0 : e.ExecuteAll iter fuel w = runOrder fuel order e w :=
    executeAll_eq_runOrder e iter fuel w order b ⟨t0, ht0⟩ hord
  have hrun1 : e.ExecuteAll iter fuel w =
      runOrder fuel (mid ++ b :: post) (e1.record a ta' (some r)) w2 := by
    rw [hrun0, hsplit, runOrder_append fuel pre _ e w e1 w1 hpre, runOrder_cons, hstepA]
  -- the dependency check at `b`
  have hres_a : mapGet e3.results a = some (some r) := by
    obtain ⟨_, _, hrs, _⟩ := runOrder_frame fuel mid _ w2 _ e3 w3 hwf2 hmid
    rw [hrs a ha_mid]
    exact mapGet_record_results_self _ _ _ _
  have hcheck : e3.checkDependencies tb = some false := by
    apply checkDependenciesLoop_false
    · intro d hd hnil
      obtain ⟨t, ht, hpre'⟩ := hbefore (pre ++ a :: mid) b post hsplit'
      rw [ht0] at ht
      cases ht
      have hd' : d ∈ t0.DependsOn := by rw [← hcfg0.2.2]; exact hd
      obtain ⟨r', hr'⟩ := runOrder_results fuel _ e w e3 w3 hpa d (hpre' d hd')
      rw [hr'] at hnil
      cases hnil
    · exact ⟨a, hdep, r, hres_a, hfail⟩
  have hstepB := runTask_skip fuel b e3 w3 tb htb hcheck
  have hrun2 : e.ExecuteAll iter fuel w =
      runOrder fuel post
        (e3.record b { tb with Status := StatusSkipped } (some (skippedResult tb))) w3 := by
    rw [hrun1, runOrder_append fuel mid _ _ w2 e3 w3 hmid, runOrder_cons, hstepB]
  refine ⟨hrun1, hrun2, ?_⟩
  intro out e' w' hret
  rw [hrun2] at hret
  have hwf4 : (e3.record b { tb with Status := StatusSkipped }
      (some (skippedResult tb))).WellFormed :=
    tasksEquiv_wellFormed (tasksEquiv_record e3 b tb _ _ htb ⟨rfl, rfl, rfl⟩) hwf3
  obtain ⟨_, htk, hrs, log, hlog, hmem⟩ := runOrder_frame fuel post _ w3 out e' w' hwf4 hret
  refine ⟨⟨_, (htk b hb_post).trans (mapGet_record_tasks_self _ _ _ _), rfl⟩,
    ⟨skippedResult tb, ?_, rfl, by simp [skippedResult]⟩, log3 ++ log, ?_, ?_⟩
  · exact getResult_of_mapGet_some _ _ _
      ((hrs b hb_post).trans (mapGet_record_results_self _ _ _ _))
  · rw [hlog, hlog3, List.append_assoc]
  · intro hm
    rcases List.mem_append.mp hm with h1 | h1
    · exact hb_pre (hmem3 b h1)
    · exact hb_post (hmem b h1)

theorem sampleExecutorRetry_wellFormed : sampleExecutorRetry.WellFormed := by
  intro k t ht
  simp only [sampleExecutorRetry, sampleExecutor, sampleMap, List.map, sampleTask, mapGet] at ht
  split at ht
  · cases ht; assumption
  · split at ht
    · cases ht; assumption
    · cases ht

/-- Witness for C4: `a` has retry count 1 and fails twice, `b` depends on `a` and has retry
count 0. -/
theorem executeAll_skips_dependents_witness :
    sampleExecutorRetry.ExecuteAll ["a", "b"] 3 failWorld =
        runOrder 3 ([] ++ "b" :: [])
          (sampleExecutorRetry.record "a" (attemptResult 1 (sampleTask "a" 1 []) failWorld).2.1
            (some (attemptResult 1 (sampleTask "a" 1 []) failWorld).1))
          (attemptResult 1 (sampleTask "a" 1 []) failWorld).2.2 ∧
    sampleExecutorRetry.ExecuteAll ["a", "b"] 3 failWorld =
        runOrder 3 []
          ((sampleExecutorRetry.record "a" (attemptResult 1 (sampleTask "a" 1 []) failWorld).2.1
              (some (attemptResult 1 (sampleTask "a" 1 []) failWorld).1)).record "b"
            { sampleTask "b" 0 ["a"] with Status := StatusSkipped }
            (some (skippedResult (sampleTask "b" 0 ["a"]))))
          (attemptResult 1 (sampleTask "a" 1 []) failWorld).2.2 ∧
    ∀ out e' w', sampleExecutorRetry.ExecuteAll ["a", "b"] 3 failWorld = some (out, e', w') →
      (∃ tb', mapGet e'.tasks "b" = some tb' ∧ tb'.Status = StatusSkipped) ∧
      (∃ res, e'.GetResult "b" = (some res, true) ∧ res.Success = false ∧ res.Error ≠ none) ∧
      ∃ log, w'.executed = failWorld.executed ++ log ∧ "b" ∉ log :=
  executeAll_skips_dependents sampleExecutorRetry ["a", "b"] 3 failWorld ["a", "b"] [] [] []
    "a" "b" (sampleTask "a" 1 []) (attemptResult 1 (sampleTask "a" 1 []) failWorld).2.1
    (sampleTask "b" 0 ["a"]) (attemptResult 1 (sampleTask "a" 1 []) failWorld).1
    sampleExecutorRetry
    (sampleExecutorRetry.record "a" (attemptResult 1 (sampleTask "a" 1 []) failWorld).2.1
      (some (attemptResult 1 (sampleTask "a" 1 []) failWorld).1))
    failWorld (attemptResult 1 (sampleTask "a" 1 []) failWorld).2.2
    (attemptResult 1 (sampleTask "a" 1 []) failWorld).2.2
    sampleExecutorRetry_wellFormed (List.Perm.refl _) rfl rfl rfl rfl (by decide) rfl rfl rfl
    rfl rfl (by decide)

/-- Counterexample to C4 as stated: `a` has retry count 1 and fails, `c` has retry count 0
and fails, `b` depends on `a` and comes after `c` in the execution order `a`, `c`, `b`.
`ExecuteAll` returns the error of `c`; the result of `a` is unsuccessful, but `b` has no
recorded result and its status is still pending, not skipped. -/
theorem executeAll_dependent_not_reached :
    buildExecutionOrder sampleExecutorACB.tasks ["a", "c", "b"] 3 = some (.ok ["a", "c", "b"]) ∧
    (sampleExecutorACB.ExecuteAll ["a", "c", "b"] 3 failWorld).map (fun x => x.1) =
      some (.returned (some "task c failed: exit status 1")) ∧
    (sampleExecutorACB.ExecuteAll ["a", "c", "b"] 3 failWorld).map
        (fun x => (x.2.1.GetResult "a").1.map (fun res => res.Success)) = some (some false) ∧
    (sampleExecutorACB.ExecuteAll ["a", "c", "b"] 3 failWorld).map
        (fun x => x.2.1.GetResult "b") = some (none, false) ∧
    (sampleExecutorACB.ExecuteAll ["a", "c", "b"] 3 failWorld).map
        (fun x => (mapGet x.2.1.tasks "b").map (fun t => t.Status)) =
      some (some StatusPending) := by
  refine ⟨rfl, rfl, rfl, rfl, rfl⟩

/-! ## Resolution failures, registration, validation -/

/-- C5: if some registered task lists a dependency identifier that is not registered, the
dependency relation being acyclic, `ExecuteAll` returns an error and leaves the executor
and the world as they were: no call of `Execute`, no status change, no recorded result. -/
theorem executeAll_missing_dependency (e : Executor) (iter : List String) (fuel : Nat)
    (w : World) (hiter : iter.Perm (mapKeys e.tasks)) (hacyc : Acyclic e.tasks)
    (hmissing : ∃ id t d, mapGet e.tasks id = some t ∧ d ∈ t.DependsOn ∧
      ¬ Registered e.tasks d)
    (hfuel : e.tasks.length ≤ fuel) :
    ∃ msg, e.ExecuteAll iter fuel w = some (.returned (some msg), e, w) := by
  obtain ⟨id, t, d, ht, hd, hnot⟩ := hmissing
  have hreg : ∀ k ∈ iter, Registered e.tasks k := fun k hk =>
    (registered_of_perm hiter k).mp hk
  have hlen : ¬ e.tasks.length = 0 := by
    intro h0
    have : e.tasks = [] := List.length_eq_zero.mp h0
    rw [this] at ht
    simp [mapGet] at ht
  unfold Executor.ExecuteAll
  rw [if_neg hlen]
  cases hb : buildExecutionOrder e.tasks iter fuel with
  | none => exact absurd hb (buildExecutionOrder_returns e.tasks iter fuel hreg hacyc hfuel)
  | some r =>
    cases r with
    | error err => exact ⟨_, rfl⟩
    | ok order =>
      exfalso
      obtain ⟨_, hbefore, hmem⟩ := buildExecutionOrder_sound e.tasks iter fuel order
        (fun k hk => (registered_of_perm hiter k).mpr hk) hb
      have hid : id ∈ order := hmem id ((registered_of_perm hiter id).mpr ⟨t, ht⟩)
      obtain ⟨pre, post, hsplit⟩ := List.append_of_mem hid
      obtain ⟨t', ht', hpre⟩ := hbefore pre id post hsplit
      rw [ht] at ht'
      cases ht'
      apply hnot
      apply depsBefore_registered hbefore
      rw [hsplit]
      exact List.mem_append_left _ (hpre d hd)

theorem sampleExecutorDangling_acyclic : Acyclic sampleExecutorDangling.tasks := by
  apply acyclic_of_rank _ (fun s => if s = "a" then 1 else 0)
  intro id t ht d hd
  simp only [sampleExecutorDangling, sampleExecutor, sampleMap, List.map, sampleTask,
    mapGet] at ht
  split at ht
  · cases ht
    next h =>
      subst h
      simp at hd
      subst hd
      decide
  · cases ht

/-- Witness for C5: the only task depends on the unregistered identifier `zzz`. -/
theorem executeAll_missing_dependency_witness :
    ∃ msg, sampleExecutorDangling.ExecuteAll ["a"] 1 failWorld =
      some (.returned (some msg), sampleExecutorDangling, failWorld) :=
  executeAll_missing_dependency sampleExecutorDangling ["a"] 1 failWorld (List.Perm.refl _)
    sampleExecutorDangling_acyclic
    ⟨"a", sampleTask "a" 0 ["zzz"], "zzz", rfl, by simp [sampleTask], by
      rintro ⟨t, ht⟩
      simp [sampleExecutorDangling, sampleExecutor, sampleMap, sampleTask, mapGet] at ht⟩
    (by decide)

/-- C6: `AddTask` with a task whose identifier is already registered returns an error and
returns the executor as it was: same task under the identifier, same registered
identifiers, same results. -/
theorem addTask_duplicate (e : Executor) (task : Task)
    (hdup : Registered e.tasks task.ID) : ∃ msg, e.AddTask task = (some msg, e) := by
  obtain ⟨t, ht⟩ := hdup
  unfold Executor.AddTask
  cases hv : task.Validate with
  | some err => exact ⟨_, rfl⟩
  | none =>
    simp only [ht]
    exact ⟨_, rfl⟩

/-- Witness for C6: a second task with the identifier `a`. -/
theorem addTask_duplicate_witness :
    ∃ msg, (sampleExecutor [sampleTask "a" 0 []]).AddTask (sampleTask "a" 5 ["b"]) =
      (some msg, sampleExecutor [sampleTask "a" 0 []]) :=
  addTask_duplicate (sampleExecutor [sampleTask "a" 0 []]) (sampleTask "a" 5 ["b"])
    ⟨sampleTask "a" 0 [], rfl⟩

/-- C7: `Task.Validate` returns no error exactly when `ID`, `Name`, `Type` and `Command`
are all non-empty, and otherwise its error names the first empty field in the order ID,
name, type, command. -/
theorem validate_iff (t : Task) :
    (t.Validate = none ↔ t.ID ≠ "" ∧ t.Name ≠ "" ∧ t.Typ ≠ "" ∧ t.Command ≠ "") ∧
    (t.ID = "" → t.Validate = some "task ID is required") ∧
    (t.ID ≠ "" → t.Name = "" → t.Validate = some "task name is required") ∧
    (t.ID ≠ "" → t.Name ≠ "" → t.Typ = "" → t.Validate = some "task type is required") ∧
    (t.ID ≠ "" → t.Name ≠ "" → t.Typ ≠ "" → t.Command = "" →
      t.Validate = some "task command is required") := by
  unfold Task.Validate
  refine ⟨?_, ?_, ?_, ?_, ?_⟩
  · constructor
    · intro h
      split at h
      · cases h
      · split at h
        · cases h
        · split at h
          · cases h
          · split at h
            · cases h
            · exact ⟨by assumption, by assumption, by assumption, by assumption⟩
    · rintro ⟨h1, h2, h3, h4⟩
      rw [if_neg h1, if_neg h2, if_neg h3, if_neg h4]
  · intro h1
    rw [if_pos h1]
  · intro h1 h2
    rw [if_neg h1, if_pos h2]
  · intro h1 h2 h3
    rw [if_neg h1, if_neg h2, if_pos h3]
  · intro h1 h2 h3 h4
    rw [if_neg h1, if_neg h2, if_neg h3, if_pos h4]

/-! ## Single-task execution -/

theorem retryLoop_returns (maxAttempts : Int) (hmax : maxAttempts + 1 ≤ maxInt) :
    ∀ (m fuel : Nat) (attempt : Int) (result : Option TaskResult) (task : Task) (w : World),
      1 ≤ attempt → attempt + m = maxAttempts → m + 1 < fuel →
      ∃ r task' w', retryLoop maxAttempts fuel attempt result task w =
        some (some r, task', w') := by
  intro m
  induction m with
  | zero =>
    intro fuel attempt result task w h1 hle hfuel
    obtain ⟨f, rfl⟩ : ∃ f, fuel = f + 2 := ⟨fuel - 2, by omega⟩
    have heq : attempt = maxAttempts := by simpa using hle
    have hw : wrapInt (attempt + 1) = attempt + 1 := by
      apply wrapInt_of_inRange <;> omega
    rw [retryLoop_succ, if_pos (le_of_eq heq)]
    by_cases hs : (task.Execute w).1.Success = true
    · rw [if_pos hs]
      exact ⟨_, _, _, rfl⟩
    · rw [if_neg hs, hw, retryLoop_succ, if_neg (by omega)]
      exact ⟨_, _, _, rfl⟩
  | succ m ih =>
    intro fuel attempt result task w h1 hle hfuel
    obtain ⟨f, rfl⟩ : ∃ f, fuel = f + 1 := ⟨fuel - 1, by omega⟩
    have hlt : attempt < maxAttempts := by push_cast at hle; omega
    have hw : wrapInt (attempt + 1) = attempt + 1 := by
      apply wrapInt_of_inRange <;> omega
    rw [retryLoop_succ, if_pos (le_of_lt hlt)]
    by_cases hs : (task.Execute w).1.Success = true
    · rw [if_pos hs]
      exact ⟨_, _, _, rfl⟩
    · rw [if_neg hs, hw]
      apply ih
      · omega
      · push_cast at hle; omega
      · omega

theorem executeWithRetry_returns (fuel : Nat) (task : Task) (w : World)
    (hr0 : 0 ≤ task.RetryCount) (hr1 : task.RetryCount + 2 ≤ maxInt)
    (hfuel : task.RetryCount + 2 ≤ fuel) :
    ∃ r task' w', executeWithRetry fuel task w = some (some r, task', w') := by
  have hmax : wrapInt (task.RetryCount + 1) = task.RetryCount + 1 := by
    apply wrapInt_of_inRange <;> omega
  unfold executeWithRetry
  rw [hmax]
  obtain ⟨n, hn⟩ : ∃ n : Nat, (n : Int) = task.RetryCount := ⟨task.RetryCount.toNat, by omega⟩
  exact retryLoop_returns _ (by omega) n fuel 1 none task w (le_refl 1) (by omega) (by omega)

/-- Retry counts in range.  For every registered identifier whose task has a retry count
`r` with `0 ≤ r` and `r + 2 ≤ maxInt`, whatever results are recorded, `ExecuteTask`
returns (a recursion budget of `r + 2` is enough) the non-nil result of `executeWithRetry`
on that task together with a nil error, and `GetResult` on the executor after the call
returns exactly that result for the identifier. -/
theorem executeTask_records (e : Executor) (fuel : Nat) (taskID : String) (w : World)
    (task : Task) (htask : mapGet e.tasks taskID = some task)
    (hr0 : 0 ≤ task.RetryCount) (hr1 : task.RetryCount + 2 ≤ maxInt)
    (hfuel : task.RetryCount + 2 ≤ fuel) :
    ∃ res task' w' e',
      executeWithRetry fuel task w = some (some res, task', w') ∧
      e.ExecuteTask fuel taskID w = some ((some res, none), e', w') ∧
      e'.GetResult taskID = (some res, true) := by
  obtain ⟨res, task', w', hx⟩ := executeWithRetry_returns fuel task w hr0 hr1 hfuel
  refine ⟨res, task', w', e.record taskID task' (some res), hx, ?_, ?_⟩
  · simp [Executor.ExecuteTask, htask, hx]
  · exact getResult_of_mapGet_some _ _ _ (mapGet_record_results_self _ _ _ _)

/-- An instance: `b` depends on `a`, nothing has been recorded for `a`, and `b` is executed
all the same. -/
theorem executeTask_records_instance :
    ∃ res task' w' e',
      executeWithRetry 2 (sampleTask "b" 0 ["a"]) okWorld = some (some res, task', w') ∧
      (sampleExecutor [sampleTask "a" 0 [], sampleTask "b" 0 ["a"]]).ExecuteTask 2 "b" okWorld =
        some ((some res, none), e', w') ∧
      e'.GetResult "b" = (some res, true) :=
  executeTask_records (sampleExecutor [sampleTask "a" 0 [], sampleTask "b" 0 ["a"]]) 2 "b"
    okWorld (sampleTask "b" 0 ["a"]) rfl (by decide) (by decide) (by decide)

/-! ## Retry counts out of range -/

/-- When `RetryCount + 1`, computed in the machine integers, is not positive, the loop of
`executeWithRetry` is not entered: no call of `Execute`, and the nil `result` variable is
returned. -/
theorem executeWithRetry_no_attempt (fuel : Nat) (task : Task) (w : World)
    (h : wrapInt (task.RetryCount + 1) < 1) :
    executeWithRetry (fuel + 1) task w = some (none, task, w) := by
  unfold executeWithRetry
  rw [retryLoop_succ, if_neg (by omega)]

/-- A nil result of `executeWithRetry` is stored and then dereferenced by the loop body of
`ExecuteAll`, which panics. -/
theorem runTask_nil_result (fuel : Nat) (id : String) (e : Executor) (w : World)
    (task task' : Task) (w' : World) (htask : mapGet e.tasks id = some task)
    (hdeps : e.checkDependencies task = some true)
    (hx : executeWithRetry fuel task w = some (none, task', w')) :
    runTask fuel id e w = some (some .panicked, e.record id task' none, w') := by
  simp [runTask, htask, hdeps, hx]

/-- `ExecuteAll` on an executor that holds one task without dependencies whose
`RetryCount + 1` is not positive panics on the nil result. -/
theorem executeAll_single_nil_result (t : Task) (w : World) (fuel : Nat)
    (hdeps : t.DependsOn = []) (h : wrapInt (t.RetryCount + 1) < 1) :
    (sampleExecutor [t]).ExecuteAll [t.ID] (fuel + 1) w =
      some (.panicked, (sampleExecutor [t]).record t.ID t none, w) := by
  have htask : mapGet (sampleExecutor [t]).tasks t.ID = some t := by
    simp [sampleExecutor, sampleMap, mapGet]
  have hord : buildExecutionOrder (sampleExecutor [t]).tasks [t.ID] (fuel + 1) =
      some (.ok [t.ID]) := by
    simp [buildExecutionOrder, visitAll, visit, visitDeps, sampleExecutor, sampleMap, mapGet,
      hdeps]
  have hcheck : (sampleExecutor [t]).checkDependencies t = some true := by
    simp [Executor.checkDependencies, hdeps, checkDependenciesLoop]
  rw [executeAll_eq_runOrder _ _ _ _ _ t.ID ⟨t, htask⟩ hord, runOrder_cons,
    runTask_nil_result (fuel + 1) t.ID _ w t t w htask hcheck
      (executeWithRetry_no_attempt fuel t w h)]

/-- C2, at the failing input: a task with retry count `maxInt`, which is not negative,
whose first attempt would succeed.  `RetryCount + 1` wraps to a negative number of
attempts: `executeWithRetry` makes no attempt and returns a nil result, and `ExecuteAll`
on an executor that holds this task panics when it dereferences that result. -/
theorem executeWithRetry_maxInt_no_attempt :
    0 ≤ (sampleTask "a" maxInt []).RetryCount ∧
    (attemptResult 0 (sampleTask "a" maxInt []) okWorld).1.Success = true ∧
    (∀ fuel, executeWithRetry (fuel + 1) (sampleTask "a" maxInt []) okWorld =
      some (none, sampleTask "a" maxInt [], okWorld)) ∧
    ∀ fuel, (sampleExecutor [sampleTask "a" maxInt []]).ExecuteAll ["a"] (fuel + 1) okWorld =
      some (.panicked,
        (sampleExecutor [sampleTask "a" maxInt []]).record "a" (sampleTask "a" maxInt []) none,
        okWorld) := by
  refine ⟨by decide, rfl, ?_, ?_⟩
  · intro fuel
    exact executeWithRetry_no_attempt fuel _ _ (by decide)
  · intro fuel
    exact executeAll_single_nil_result (sampleTask "a" maxInt []) okWorld fuel rfl (by decide)

/-- C8, at the failing input: the registered task `a` has retry count `-1`, which `AddTask`
accepts.  `ExecuteTask` returns a nil result with a nil error, `Execute` is never called,
`GetResult` then finds a nil pointer under `a`, and `ExecuteAll` on the same executor
panics when it dereferences the nil result. -/
theorem executeTask_negative_retry_nil :
    (NewExecutor 1 false).AddTask (sampleTask "a" (-1) []) =
      (none, sampleExecutor [sampleTask "a" (-1) []]) ∧
    (∀ fuel, (sampleExecutor [sampleTask "a" (-1) []]).ExecuteTask (fuel + 1) "a" okWorld =
      some ((none, none),
        (sampleExecutor [sampleTask "a" (-1) []]).record "a" (sampleTask "a" (-1) []) none,
        okWorld)) ∧
    ((sampleExecutor [sampleTask "a" (-1) []]).record "a" (sampleTask "a" (-1) [])
      none).GetResult "a" = (none, true) ∧
    ∀ fuel, (sampleExecutor [sampleTask "a" (-1) []]).ExecuteAll ["a"] (fuel + 1) okWorld =
      some (.panicked,
        (sampleExecutor [sampleTask "a" (-1) []]).record "a" (sampleTask "a" (-1) []) none,
        okWorld) := by
  refine ⟨rfl, ?_, rfl, ?_⟩
  · intro fuel
    have hx := executeWithRetry_no_attempt fuel (sampleTask "a" (-1) []) okWorld (by decide)
    have ht : mapGet (sampleExecutor [sampleTask "a" (-1) []]).tasks "a" =
        some (sampleTask "a" (-1) []) := rfl
    simp [Executor.ExecuteTask, ht, hx]
  · intro fuel
    exact executeAll_single_nil_result (sampleTask "a" (-1) []) okWorld fuel rfl (by decide)

/-! ## Configuration validation -/

theorem validateTasks_ok :
    ∀ (tasks : List Task) (taskIDs taskIDs' : GoMap Bool) (seen : List String),
      (∀ k, (mapGet taskIDs k).getD false = true ↔ k ∈ seen) →
      validateTasks tasks taskIDs = .ok taskIDs' →
      (∀ t ∈ tasks, t.Validate = none) ∧ (tasks.map Task.ID).Nodup ∧
      (∀ t ∈ tasks, t.ID ∉ seen) ∧
      ∀ k, (mapGet taskIDs' k).getD false = true ↔ k ∈ seen ∨ k ∈ tasks.map Task.ID := by
  intro tasks
  induction tasks with
  | nil =>
    intro taskIDs taskIDs' seen hseen h
    simp only [validateTasks, Except.ok.injEq] at h
    subst h
    exact ⟨by simp, by simp, by simp, by simpa using hseen⟩
  | cons t rest ih =>
    intro taskIDs taskIDs' seen hseen h
    simp only [validateTasks] at h
    cases hv : t.Validate with
    | some err => simp [hv] at h
    | none =>
      simp only [hv] at h
      by_cases hdup : (mapGet taskIDs t.ID).getD false = true
      · rw [if_pos hdup] at h
        cases h
      · rw [if_neg hdup] at h
        have hseen' : ∀ k, (mapGet (mapSet taskIDs t.ID true) k).getD false = true ↔
            k ∈ t.ID :: seen := by
          intro k
          by_cases hk : t.ID = k
          · subst hk
            simp [mapGet_mapSet_self]
          · rw [mapGet_mapSet_of_ne _ _ _ _ hk, hseen k]
            simp only [List.mem_cons]
            constructor
            · exact fun hm => Or.inr hm
            · rintro (hm | hm)
              · exact absurd hm.symm hk
              · exact hm
        obtain ⟨h1, h2, h3, h4⟩ := ih _ taskIDs' (t.ID :: seen) hseen' h
        have htseen : t.ID ∉ seen := fun hm => hdup ((hseen t.ID).mpr hm)
        refine ⟨?_, ?_, ?_, ?_⟩
        · intro u hu
          rcases List.mem_cons.mp hu with h5 | h5
          · subst h5; exact hv
          · exact h1 u h5
        · simp only [List.map_cons, List.nodup_cons]
          refine ⟨?_, h2⟩
          intro hm
          obtain ⟨u, hu, hid⟩ := List.mem_map.mp hm
          exact h3 u hu (by rw [hid]; exact List.mem_cons_self _ _)
        · intro u hu
          rcases List.mem_cons.mp hu with h5 | h5
          · subst h5; exact htseen
          · exact fun hm => h3 u h5 (List.mem_cons_of_mem _ hm)
        · intro k
          rw [h4 k]
          simp only [List.mem_cons, List.map_cons]
          tauto

theorem validateTasks_error :
    ∀ (tasks : List Task) (taskIDs : GoMap Bool) (seen : List String) (err : String),
      (∀ k, (mapGet taskIDs k).getD false = true ↔ k ∈ seen) →
      validateTasks tasks taskIDs = .error err →
      ∃ pre t post, tasks = pre ++ t :: post ∧
        (∀ u ∈ pre, u.Validate = none) ∧ (pre.map Task.ID).Nodup ∧
        (∀ u ∈ pre, u.ID ∉ seen) ∧
        ((∃ verr, t.Validate = some verr ∧ err = "task " ++ t.ID ++ ": " ++ verr) ∨
          (t.Validate = none ∧ (t.ID ∈ seen ∨ t.ID ∈ pre.map Task.ID) ∧
            err = "duplicate task ID: " ++ t.ID)) := by
  intro tasks
  induction tasks with
  | nil => intro taskIDs seen err _ h; simp [validateTasks] at h
  | cons t rest ih =>
    intro taskIDs seen err hseen h
    simp only [validateTasks] at h
    cases hv : t.Validate with
    | some verr =>
      simp only [hv, Except.error.injEq] at h
      exact ⟨[], t, rest, rfl, by simp, by simp, by simp, Or.inl ⟨verr, hv, h.symm⟩⟩
    | none =>
      simp only [hv] at h
      by_cases hdup : (mapGet taskIDs t.ID).getD false = true
      · rw [if_pos hdup] at h
        simp only [Except.error.injEq] at h
        exact ⟨[], t, rest, rfl, by simp, by simp, by simp,
          Or.inr ⟨hv, Or.inl ((hseen t.ID).mp hdup), h.symm⟩⟩
      · rw [if_neg hdup] at h
        have hseen' : ∀ k, (mapGet (mapSet taskIDs t.ID true) k).getD false = true ↔
            k ∈ t.ID :: seen := by
          intro k
          by_cases hk : t.ID = k
          · subst hk
            simp [mapGet_mapSet_self]
          · rw [mapGet_mapSet_of_ne _ _ _ _ hk, hseen k]
            simp only [List.mem_cons]
            constructor
            · exact fun hm => Or.inr hm
            · rintro (hm | hm)
              · exact absurd hm.symm hk
              · exact hm
        obtain ⟨pre, u, post, hsplit, h1, h2, h3, h4⟩ := ih _ (t.ID :: seen) err hseen' h
        have htseen : t.ID ∉ seen := fun hm => hdup ((hseen t.ID).mpr hm)
        refine ⟨t :: pre, u, post, by rw [hsplit]; rfl, ?_, ?_, ?_, ?_⟩
        · intro x hx
          rcases List.mem_cons.mp hx with h5 | h5
          · subst h5; exact hv
          · exact h1 x h5
        · simp only [List.map_cons, List.nodup_cons]
          refine ⟨?_, h2⟩
          intro hm
          obtain ⟨x, hx, hid⟩ := List.mem_map.mp hm
          exact h3 x hx (by rw [hid]; exact List.mem_cons_self _ _)
        · intro x hx
          rcases List.mem_cons.mp hx with h5 | h5
          · subst h5; exact htseen
          · exact fun hm => h3 x h5 (List.mem_cons_of_mem _ hm)
        · rcases h4 with h4 | ⟨h5, h6, h7⟩
          · exact Or.inl h4
          · refine Or.inr ⟨h5, ?_, h7⟩
            simp only [List.map_cons, List.mem_cons] at h6 ⊢
            tauto

theorem validateDependsOn_none (taskIDs : GoMap Bool) (taskID : String) :
    ∀ (deps : List String), validateDependsOn taskIDs taskID deps = none ↔
      ∀ d ∈ deps, (mapGet taskIDs d).getD false = true := by
  intro deps
  induction deps with
  | nil => simp [validateDependsOn]
  | cons d rest ih =>
    simp only [validateDependsOn]
    by_cases hd : (mapGet taskIDs d).getD false = true
    · rw [if_pos hd, ih]
      simp [hd]
    · rw [if_neg hd]
      simp [hd]

theorem validateDependsOn_some (taskIDs : GoMap Bool) (taskID : String) :
    ∀ (deps : List String) (err : String), validateDependsOn taskIDs taskID deps = some err →
      ∃ dpre d dpost, deps = dpre ++ d :: dpost ∧
        (∀ x ∈ dpre, (mapGet taskIDs x).getD false = true) ∧
        ¬ (mapGet taskIDs d).getD false = true ∧
        err = "task " ++ taskID ++ " depends on non-existent task: " ++ d := by
  intro deps
  induction deps with
  | nil => intro err h; simp [validateDependsOn] at h
  | cons d rest ih =>
    intro err h
    simp only [validateDependsOn] at h
    by_cases hd : (mapGet taskIDs d).getD false = true
    · rw [if_pos hd] at h
      obtain ⟨dpre, d', dpost, hsplit, h1, h2, h3⟩ := ih err h
      refine ⟨d :: dpre, d', dpost, by rw [hsplit]; rfl, ?_, h2, h3⟩
      intro x hx
      rcases List.mem_cons.mp hx with h5 | h5
      · subst h5; exact hd
      · exact h1 x h5
    · rw [if_neg hd] at h
      simp only [Option.some.injEq] at h
      exact ⟨[], d, rest, rfl, by simp, hd, h.symm⟩

theorem validateDependencies_none (taskIDs : GoMap Bool) :
    ∀ (tasks : List Task), validateDependencies taskIDs tasks = none →
      ∀ t ∈ tasks, ∀ d ∈ t.DependsOn, (mapGet taskIDs d).getD false = true := by
  intro tasks
  induction tasks with
  | nil => intro _ t ht; simp at ht
  | cons t rest ih =>
    intro h u hu
    simp only [validateDependencies] at h
    cases hd : validateDependsOn taskIDs t.ID t.DependsOn with
    | some err => simp [hd] at h
    | none =>
      simp only [hd] at h
      rcases List.mem_cons.mp hu with h5 | h5
      · subst h5
        exact (validateDependsOn_none taskIDs _ _).mp hd
      · exact ih h u h5

theorem validateDependencies_some (taskIDs : GoMap Bool) :
    ∀ (tasks : List Task) (err : String), validateDependencies taskIDs tasks = some err →
      ∃ pre t post, tasks = pre ++ t :: post ∧
        (∀ u ∈ pre, ∀ d ∈ u.DependsOn, (mapGet taskIDs d).getD false = true) ∧
        ∃ dpre d dpost, t.DependsOn = dpre ++ d :: dpost ∧
          (∀ x ∈ dpre, (mapGet taskIDs x).getD false = true) ∧
          ¬ (mapGet taskIDs d).getD false = true ∧
          err = "task " ++ t.ID ++ " depends on non-existent task: " ++ d := by
  intro tasks
  induction tasks with
  | nil => intro err h; simp [validateDependencies] at h
  | cons t rest ih =>
    intro err h
    simp only [validateDependencies] at h
    cases hd : validateDependsOn taskIDs t.ID t.DependsOn with
    | some err' =>
      simp only [hd, Option.some.injEq] at h
      subst h
      exact ⟨[], t, rest, rfl, by simp, validateDependsOn_some taskIDs _ _ _ hd⟩
    | none =>
      simp only [hd] at h
      obtain ⟨pre, u, post, hsplit, h1, h2⟩ := ih err h
      refine ⟨t :: pre, u, post, by rw [hsplit]; rfl, ?_, h2⟩
      intro x hx
      rcases List.mem_cons.mp hx with h5 | h5
      · subst h5
        exact (validateDependsOn_none taskIDs _ _).mp hd
      · exact h1 x h5

theorem seen_nil (k : String) :
    (mapGet ([] : GoMap Bool) k).getD false = true ↔ k ∈ ([] : List String) := by
  simp [mapGet]

theorem validateTasks_ids (tasks : List Task) (taskIDs : GoMap Bool)
    (h : validateTasks tasks [] = .ok taskIDs) (k : String) :
    (mapGet taskIDs k).getD false = true ↔ ∃ u ∈ tasks, u.ID = k := by
  obtain ⟨_, _, _, h4⟩ := validateTasks_ok tasks [] taskIDs [] seen_nil h
  rw [h4 k]
  simp

/-- C9 (amended): when `Config.Validate` fails on a configuration with a version and at
least one task, then either the error names the first task in list order that is
ill-formed or repeats the identifier of an earlier task (the tasks before it are
well-formed with pairwise distinct identifiers, whatever their dependencies), or no task at
all is ill-formed or a duplicate and the error names the first task in list order that
depends on an identifier no task has, together with the first such dependency. -/
theorem config_validate_first_offender (c : Config) (err : String)
    (h : c.Validate = some err) (hversion : c.Version ≠ "") (htasks : c.Tasks ≠ []) :
    (∃ pre t post, c.Tasks = pre ++ t :: post ∧
      (∀ u ∈ pre, u.Validate = none) ∧ (pre.map Task.ID).Nodup ∧
      ((∃ verr, t.Validate = some verr ∧ err = "task " ++ t.ID ++ ": " ++ verr) ∨
        (t.Validate = none ∧ t.ID ∈ pre.map Task.ID ∧
          err = "duplicate task ID: " ++ t.ID))) ∨
    ((∀ u ∈ c.Tasks, u.Validate = none) ∧ (c.Tasks.map Task.ID).Nodup ∧
      ∃ pre t post, c.Tasks = pre ++ t :: post ∧
        (∀ u ∈ pre, ∀ d ∈ u.DependsOn, ∃ x ∈ c.Tasks, x.ID = d) ∧
        ∃ dpre d dpost, t.DependsOn = dpre ++ d :: dpost ∧
          (∀ x ∈ dpre, ∃ u ∈ c.Tasks, u.ID = x) ∧ (∀ u ∈ c.Tasks, u.ID ≠ d) ∧
          err = "task " ++ t.ID ++ " depends on non-existent task: " ++ d) := by
  unfold Config.Validate at h
  rw [if_neg hversion, if_neg (by simpa using htasks)] at h
  cases hv : validateTasks c.Tasks [] with
  | error err' =>
    simp only [hv, Option.some.injEq] at h
    subst h
    obtain ⟨pre, t, post, hsplit, h1, h2, _, h4⟩ :=
      validateTasks_error c.Tasks [] [] err' seen_nil hv
    refine Or.inl ⟨pre, t, post, hsplit, h1, h2, ?_⟩
    rcases h4 with h4 | ⟨h5, h6, h7⟩
    · exact Or.inl h4
    · refine Or.inr ⟨h5, ?_, h7⟩
      simpa using h6
  | ok taskIDs =>
    simp only [hv] at h
    obtain ⟨h1, h2, _, _⟩ := validateTasks_ok c.Tasks [] taskIDs [] seen_nil hv
    have hids := validateTasks_ids c.Tasks taskIDs hv
    obtain ⟨pre, t, post, hsplit, h5, dpre, d, dpost, h6, h7, h8, h9⟩ :=
      validateDependencies_some taskIDs c.Tasks err h
    refine Or.inr ⟨h1, h2, pre, t, post, hsplit, ?_, dpre, d, dpost, h6, ?_, ?_, h9⟩
    · intro u hu x hx
      exact (hids x).mp (h5 u hu x hx)
    · intro x hx
      exact (hids x).mp (h7 x hx)
    · intro u hu hid
      exact h8 ((hids d).mpr ⟨u, hu, hid⟩)

/-- Witness for C9: the error is about `b`, which has no name, although `a` before it
depends on a non-existent task. -/
theorem config_validate_first_offender_witness :
    (∃ pre t post, sampleConfigTwoFaults.Tasks = pre ++ t :: post ∧
      (∀ u ∈ pre, u.Validate = none) ∧ (pre.map Task.ID).Nodup ∧
      ((∃ verr, t.Validate = some verr ∧
          "task b: task name is required" = "task " ++ t.ID ++ ": " ++ verr) ∨
        (t.Validate = none ∧ t.ID ∈ pre.map Task.ID ∧
          "task b: task name is required" = "duplicate task ID: " ++ t.ID))) ∨
    ((∀ u ∈ sampleConfigTwoFaults.Tasks, u.Validate = none) ∧
      (sampleConfigTwoFaults.Tasks.map Task.ID).Nodup ∧
      ∃ pre t post, sampleConfigTwoFaults.Tasks = pre ++ t :: post ∧
        (∀ u ∈ pre, ∀ d ∈ u.DependsOn, ∃ x ∈ sampleConfigTwoFaults.Tasks, x.ID = d) ∧
        ∃ dpre d dpost, t.DependsOn = dpre ++ d :: dpost ∧
          (∀ x ∈ dpre, ∃ u ∈ sampleConfigTwoFaults.Tasks, u.ID = x) ∧
          (∀ u ∈ sampleConfigTwoFaults.Tasks, u.ID ≠ d) ∧
          "task b: task name is required" =
            "task " ++ t.ID ++ " depends on non-existent task: " ++ d) :=
  config_validate_first_offender sampleConfigTwoFaults "task b: task name is required" rfl
    (by decide) (by decide)

/-- Counterexample to C9 as stated: `Config.Validate` reports the task `b`, which has no
name, and no other task; the task `a`, earlier in the list, depends on the non-existent
task `zzz`. -/
theorem config_validate_not_first_offender :
    sampleConfigTwoFaults.Validate = some "task b: task name is required" ∧
    ¬ ReportsFirstOffender sampleConfigTwoFaults "task b: task name is required" := by
  refine ⟨rfl, ?_⟩
  rintro ⟨pre, t, post, hsplit, hname, hno⟩
  have htasks : sampleConfigTwoFaults.Tasks = [sampleTask "a" 0 ["zzz"], sampleTaskNoName] :=
    rfl
  rw [htasks] at hsplit hno
  cases pre with
  | nil =>
    simp only [List.nil_append, List.cons.injEq] at hsplit
    obtain ⟨h1, _⟩ := hsplit
    subst h1
    have hid : (sampleTask "a" 0 ["zzz"]).ID = "a" := rfl
    unfold NamesTask at hname
    rw [hid] at hname
    rcases hname with ⟨verr, h⟩ | h | ⟨d, h⟩
    · have h2 := congrArg (fun s => s.data.take 6) h
      simp [String.data_append] at h2
    · revert h
      decide
    · have h2 := congrArg (fun s => s.data.take 6) h
      simp [String.data_append] at h2
  | cons x pre' =>
    simp only [List.cons_append, List.cons.injEq] at hsplit
    obtain ⟨h1, h2⟩ := hsplit
    subst h1
    apply hno [] (sampleTask "a" 0 ["zzz"]) pre' rfl
    refine Or.inr (Or.inr ⟨"zzz", by simp [sampleTask], ?_⟩)
    intro u hu
    simp only [List.mem_cons, List.mem_singleton, List.not_mem_nil, or_false] at hu
    rcases hu with h | h
    · subst h; decide
    · subst h; decide

/-- C10: if `Config.Validate` returns no error, the task list is non-empty, every task
passes `Task.Validate`, no two tasks share an identifier, and every identifier in every
`DependsOn` is the identifier of some task of the list, wherever that task stands. -/
theorem config_validate_ok (c : Config) (h : c.Validate = none) :
    c.Tasks ≠ [] ∧ (∀ t ∈ c.Tasks, t.Validate = none) ∧ (c.Tasks.map Task.ID).Nodup ∧
    ∀ t ∈ c.Tasks, ∀ d ∈ t.DependsOn, ∃ u ∈ c.Tasks, u.ID = d := by
  unfold Config.Validate at h
  by_cases hversion : c.Version = ""
  · rw [if_pos hversion] at h
    cases h
  · rw [if_neg hversion] at h
    by_cases hlen : c.Tasks.length = 0
    · rw [if_pos hlen] at h
      cases h
    · rw [if_neg hlen] at h
      cases hv : validateTasks c.Tasks [] with
      | error err => simp [hv] at h
      | ok taskIDs =>
        simp only [hv] at h
        obtain ⟨h1, h2, _, _⟩ := validateTasks_ok c.Tasks [] taskIDs [] seen_nil hv
        have hids := validateTasks_ids c.Tasks taskIDs hv
        refine ⟨by simpa using hlen, h1, h2, ?_⟩
        intro t ht d hd
        exact (hids d).mp (validateDependencies_none taskIDs c.Tasks h t ht d hd)

/-- Witness for C10: `a` depends on `b`, which is defined after it. -/
theorem config_validate_ok_witness :
    (sampleConfig [sampleTask "a" 0 ["b"], sampleTask "b" 0 []]).Tasks ≠ [] ∧
    (∀ t ∈ (sampleConfig [sampleTask "a" 0 ["b"], sampleTask "b" 0 []]).Tasks,
      t.Validate = none) ∧
    ((sampleConfig [sampleTask "a" 0 ["b"], sampleTask "b" 0 []]).Tasks.map Task.ID).Nodup ∧
    ∀ t ∈ (sampleConfig [sampleTask "a" 0 ["b"], sampleTask "b" 0 []]).Tasks,
      ∀ d ∈ t.DependsOn,
        ∃ u ∈ (sampleConfig [sampleTask "a" 0 ["b"], sampleTask "b" 0 []]).Tasks, u.ID = d :=
  config_validate_ok (sampleConfig [sampleTask "a" 0 ["b"], sampleTask "b" 0 []]) rfl

/-! ## The ordering: what determines it -/

theorem visitDeps_congr (tasks tasks' : GoMap Task)
    (v v' : String → VisitState → Partial VisitState) (taskID : String)
    (hget : ∀ k, mapGet tasks k = mapGet tasks' k) (hv : ∀ d st, v d st = v' d st) :
    ∀ (deps : List String) (st : VisitState),
      visitDeps tasks v taskID deps st = visitDeps tasks' v' taskID deps st := by
  intro deps
  induction deps with
  | nil => intro st; rfl
  | cons d rest ih =>
    intro st
    simp only [visitDeps, hget d, hv d st]
    cases mapGet tasks' d with
    | none => rfl
    | some t =>
      simp only
      cases v' d st with
      | none => rfl
      | some r =>
        cases r with
        | error err => rfl
        | ok st1 => exact ih st1

theorem visit_congr (tasks tasks' : GoMap Task) (hget : ∀ k, mapGet tasks k = mapGet tasks' k) :
    ∀ (fuel : Nat) (x : String) (st : VisitState),
      visit tasks fuel x st = visit tasks' fuel x st := by
  intro fuel
  induction fuel with
  | zero => intro x st; rfl
  | succ fuel ih =>
    intro x st
    simp only [visit, hget x]
    cases mapGet tasks' x with
    | none => rfl
    | some task =>
      simp only
      rw [visitDeps_congr tasks tasks' (visit tasks fuel) (visit tasks' fuel) x hget ih]

theorem visitAll_congr (tasks tasks' : GoMap Task) (hget : ∀ k, mapGet tasks k = mapGet tasks' k)
    (fuel : Nat) :
    ∀ (iter : List String) (st : VisitState),
      visitAll tasks fuel iter st = visitAll tasks' fuel iter st := by
  intro iter
  induction iter with
  | nil => intro st; rfl
  | cons x rest ih =>
    intro st
    simp only [visitAll, visit_congr tasks tasks' hget fuel x st]
    cases visit tasks' fuel x st with
    | none => rfl
    | some r =>
      cases r with
      | error err => rfl
      | ok st1 => exact ih st1

/-- C11 (amended): the sequence that `buildExecutionOrder` returns is determined by the
order in which `range` enumerates the task map and by what is registered under each
identifier: two task maps with the same task under every identifier, however they were
filled, give the same result for the same enumeration order. -/
theorem buildExecutionOrder_lookup_congr (tasks tasks' : GoMap Task) (iter : List String)
    (fuel : Nat) (hget : ∀ k, mapGet tasks k = mapGet tasks' k) :
    buildExecutionOrder tasks iter fuel = buildExecutionOrder tasks' iter fuel := by
  unfold buildExecutionOrder
  rw [visitAll_congr tasks tasks' hget fuel iter]

theorem sampleExecutorIndependent_get (k : String) :
    mapGet sampleExecutorIndependent.tasks k = mapGet sampleExecutorIndependentRev.tasks k := by
  have h1 : sampleExecutorIndependent.tasks =
      [("a", sampleTask "a" 0 []), ("b", sampleTask "b" 0 [])] := rfl
  have h2 : sampleExecutorIndependentRev.tasks =
      [("b", sampleTask "b" 0 []), ("a", sampleTask "a" 0 [])] := rfl
  rw [h1, h2]
  simp only [mapGet]
  by_cases ha : "a" = k
  · subst ha
    rfl
  · by_cases hb : "b" = k
    · subst hb
      rfl
    · simp [ha, hb]

/-- Witness for C11: the tasks `a` and `b` registered in the order `a`, `b` and in the
order `b`, `a` give the same execution order when `range` enumerates `b` before `a`. -/
theorem buildExecutionOrder_lookup_congr_witness :
    buildExecutionOrder sampleExecutorIndependent.tasks ["b", "a"] 2 =
      buildExecutionOrder sampleExecutorIndependentRev.tasks ["b", "a"] 2 :=
  buildExecutionOrder_lookup_congr sampleExecutorIndependent.tasks
    sampleExecutorIndependentRev.tasks ["b", "a"] 2 sampleExecutorIndependent_get

/-- Counterexample to C11 as stated: after the registrations `a`, `b` (no dependencies)
the two enumerations `a`, `b` and `b`, `a` of the task map, both of which `range` may
produce, give two different execution orders. -/
theorem buildExecutionOrder_depends_on_enumeration :
    (NewExecutor 1 false).AddTasks [sampleTask "a" 0 [], sampleTask "b" 0 []] =
      (none, sampleExecutorIndependent) ∧
    ["a", "b"].Perm (mapKeys sampleExecutorIndependent.tasks) ∧
    ["b", "a"].Perm (mapKeys sampleExecutorIndependent.tasks) ∧
    buildExecutionOrder sampleExecutorIndependent.tasks ["a", "b"] 2 = some (.ok ["a", "b"]) ∧
    buildExecutionOrder sampleExecutorIndependent.tasks ["b", "a"] 2 = some (.ok ["b", "a"]) ∧
    buildExecutionOrder sampleExecutorIndependent.tasks ["a", "b"] 2 ≠
      buildExecutionOrder sampleExecutorIndependent.tasks ["b", "a"] 2 := by
  refine ⟨rfl, List.Perm.refl _, List.Perm.swap _ _ _, rfl, rfl, ?_⟩
  have h1 : buildExecutionOrder sampleExecutorIndependent.tasks ["a", "b"] 2 =
      some (.ok ["a", "b"]) := rfl
  have h2 : buildExecutionOrder sampleExecutorIndependent.tasks ["b", "a"] 2 =
      some (.ok ["b", "a"]) := rfl
  rw [h1, h2]
  intro h
  simp at h

/-! ## The ordering: cycles -/

/-- C12: when every dependency identifier is registered and the dependency relation has a
cycle, `buildExecutionOrder` returns neither an error nor an order, whatever bound is put
on the depth of the recursion: the traversal recurses without bound. -/
theorem buildExecutionOrder_cycle_diverges (tasks : GoMap Task) (iter : List String)
    (hiter : iter.Perm (mapKeys tasks)) (hdeps : DepsRegistered tasks)
    (hcycle : ¬ Acyclic tasks) :
    ∀ fuel, buildExecutionOrder tasks iter fuel = none := by
  intro fuel
  cases hb : buildExecutionOrder tasks iter fuel with
  | none => rfl
  | some r =>
    exfalso
    cases r with
    | error err =>
      exact buildExecutionOrder_no_error tasks iter fuel
        (fun k hk => (registered_of_perm hiter k).mp hk) hdeps err hb
    | ok order =>
      obtain ⟨_, hbefore, hmem⟩ := buildExecutionOrder_sound tasks iter fuel order
        (fun k hk => (registered_of_perm hiter k).mpr hk) hb
      exact hcycle (depsBefore_acyclic hbefore
        (fun k hk => hmem k ((registered_of_perm hiter k).mpr hk)))

/-- Witness for C12: a task that depends on itself, with a depth bound of 1000. -/
theorem buildExecutionOrder_cycle_diverges_witness :
    buildExecutionOrder sampleTasksSelf ["a"] 1000 = none :=
  buildExecutionOrder_cycle_diverges sampleTasksSelf ["a"] (List.Perm.refl _)
    (by
      intro id t ht d hd
      simp only [sampleTasksSelf, sampleMap, List.map, sampleTask, mapGet] at ht
      split at ht
      · cases ht
        simp at hd
        subst hd
        exact ⟨sampleTask "a" 0 ["a"], rfl⟩
      · cases ht)
    (fun hacyc => hacyc "a"
      (Relation.TransGen.single ⟨sampleTask "a" 0 ["a"], rfl, by simp [sampleTask]⟩))
    1000

/-! ## Clearing and registering -/

/-- C13: after `Clear`, whatever the executor held, the task map and the result map are
empty: `GetResults` returns an empty map, `GetResult` finds nothing for every identifier,
and `ExecuteAll` returns the error `no tasks to execute` without doing anything. -/
theorem clear_empties (e : Executor) :
    e.Clear.tasks = [] ∧ e.Clear.results = [] ∧ e.Clear.GetResults = [] ∧
    (∀ taskID, e.Clear.GetResult taskID = (none, false)) ∧
    ∀ (iter : List String) (fuel : Nat) (w : World),
      e.Clear.ExecuteAll iter fuel w =
        some (.returned (some "no tasks to execute"), e.Clear, w) := by
  refine ⟨rfl, rfl, rfl, ?_, ?_⟩
  · intro taskID
    simp [Executor.GetResult, Executor.Clear, mapGet]
  · intro iter fuel w
    simp [Executor.ExecuteAll, Executor.Clear]

theorem mapSet_of_absent {β : Type} (m : GoMap β) (k : String) (v : β)
    (h : mapGet m k = none) : mapSet m k v = m ++ [(k, v)] := by
  induction m with
  | nil => rfl
  | cons p rest ih =>
    obtain ⟨k', v'⟩ := p
    by_cases hk : k' = k
    · simp [mapGet, hk] at h
    · simp only [mapGet, hk, if_false] at h
      simp [mapSet, hk, ih h]

theorem addTask_ok (e e' : Executor) (task : Task) (h : e.AddTask task = (none, e')) :
    task.Validate = none ∧ mapGet e.tasks task.ID = none ∧
    e' = { e with tasks := e.tasks ++ [(task.ID, task)] } := by
  unfold Executor.AddTask at h
  cases hv : task.Validate with
  | some err => simp [hv] at h
  | none =>
    simp only [hv] at h
    cases hg : mapGet e.tasks task.ID with
    | some t => simp [hg] at h
    | none =>
      simp only [hg, Prod.mk.injEq, true_and] at h
      refine ⟨rfl, rfl, ?_⟩
      rw [← h, mapSet_of_absent _ _ _ hg]

theorem addTask_error_unchanged (e e' : Executor) (task : Task) (err : String)
    (h : e.AddTask task = (some err, e')) : e' = e := by
  unfold Executor.AddTask at h
  cases hv : task.Validate with
  | some verr =>
    simp only [hv, Prod.mk.injEq] at h
    exact h.2.symm
  | none =>
    simp only [hv] at h
    cases hg : mapGet e.tasks task.ID with
    | some t =>
      simp only [hg, Prod.mk.injEq] at h
      exact h.2.symm
    | none => simp [hg] at h

theorem addTasks_cons (e : Executor) (task : Task) (rest : List Task) :
    e.AddTasks (task :: rest) =
      match e.AddTask task with
      | (some err, e') => (some err, e')
      | (none, e') => e'.AddTasks rest := rfl

theorem mapGet_append_of_some {β : Type} (m m' : GoMap β) (k : String) (v : β)
    (h : mapGet m k = some v) : mapGet (m ++ m') k = some v := by
  induction m with
  | nil => simp [mapGet] at h
  | cons p rest ih =>
    obtain ⟨k', v'⟩ := p
    by_cases hk : k' = k
    · simpa [mapGet, hk] using h
    · simp only [mapGet, hk, if_false] at h
      simp [mapGet, hk, ih h]

theorem mapGet_append_of_none {β : Type} (m m' : GoMap β) (k : String)
    (h : mapGet m k = none) : mapGet (m ++ m') k = mapGet m' k := by
  induction m with
  | nil => rfl
  | cons p rest ih =>
    obtain ⟨k', v'⟩ := p
    by_cases hk : k' = k
    · simp [mapGet, hk] at h
    · simp only [mapGet, hk, if_false] at h
      simp [mapGet, hk, ih h]

/-- What a run of `AddTasks` without error has done. -/
theorem addTasks_ok :
    ∀ (tasks : List Task) (e e' : Executor), e.AddTasks tasks = (none, e') →
      e' = { e with tasks := e.tasks ++ tasks.map (fun u => (u.ID, u)) } ∧
      (∀ u ∈ tasks, mapGet e'.tasks u.ID = some u) ∧
      (∀ k t, mapGet e.tasks k = some t → mapGet e'.tasks k = some t) := by
  intro tasks
  induction tasks with
  | nil =>
    intro e e' h
    simp only [Executor.AddTasks, Prod.mk.injEq, true_and] at h
    subst h
    exact ⟨by simp, by simp, fun _ _ h => h⟩
  | cons task rest ih =>
    intro e e' h
    rw [addTasks_cons] at h
    cases ha : e.AddTask task with
    | mk o e1 =>
      cases o with
      | some err => simp [ha] at h
      | none =>
        simp only [ha] at h
        obtain ⟨_, habs, he1⟩ := addTask_ok e e1 task ha
        obtain ⟨he', hmem, hkeep⟩ := ih e1 e' h
        have hself : mapGet e1.tasks task.ID = some task := by
          rw [he1]
          show mapGet (e.tasks ++ [(task.ID, task)]) task.ID = some task
          rw [mapGet_append_of_none _ _ _ habs]
          simp [mapGet]
        refine ⟨?_, ?_, ?_⟩
        · rw [he', he1]
          simp
        · intro u hu
          rcases List.mem_cons.mp hu with h1 | h1
          · subst h1
            exact hkeep _ _ hself
          · exact hmem u h1
        · intro k t hk
          apply hkeep
          rw [he1]
          exact mapGet_append_of_some _ _ _ _ hk

/-- C14: `AddTasks` registers the tasks in list order and stops at the first one that
`AddTask` rejects.  When the tasks `pre` are all accepted, leading to the executor `e1`,
and `AddTask` rejects the next task `t` there with `err`, then `AddTasks` returns `err`
and the executor `e1`, whatever tasks follow `t`: `e1` is the executor before the call
with exactly the tasks `pre` appended to its task map in list order, every task of `pre`
is registered under its identifier, and nothing else has changed. -/
theorem addTasks_stops_at_first_rejection (e e1 e2 : Executor) (pre post : List Task)
    (t : Task) (err : String) (hpre : e.AddTasks pre = (none, e1))
    (hrej : e1.AddTask t = (some err, e2)) :
    e.AddTasks (pre ++ t :: post) = (some err, e1) ∧
    e1 = { e with tasks := e.tasks ++ pre.map (fun u => (u.ID, u)) } ∧
    (∀ u ∈ pre, mapGet e1.tasks u.ID = some u) ∧
    e1.results = e.results := by
  have hstep : ∀ (l : List Task) (ea eb : Executor), ea.AddTasks l = (none, eb) →
      ea.AddTasks (l ++ t :: post) = eb.AddTasks (t :: post) := by
    intro l
    induction l with
    | nil =>
      intro ea eb h
      simp only [Executor.AddTasks, Prod.mk.injEq, true_and] at h
      subst h
      rfl
    | cons x l ihl =>
      intro ea eb h
      rw [List.cons_append, addTasks_cons]
      rw [addTasks_cons] at h
      cases ha : ea.AddTask x with
      | mk o ec =>
        cases o with
        | some err' => simp [ha] at h
        | none =>
          simp only [ha] at h ⊢
          exact ihl ec eb h
  have he2 := addTask_error_unchanged e1 e2 t err hrej
  subst he2
  obtain ⟨h1, h2, _⟩ := addTasks_ok pre e e2 hpre
  refine ⟨?_, h1, h2, ?_⟩
  · rw [hstep pre e e2 hpre, addTasks_cons, hrej]
  · rw [h1]

/-- Witness for C14: `a` is accepted, the second `a` is rejected as a duplicate and `c` is
not registered. -/
theorem addTasks_stops_at_first_rejection_witness :
    (NewExecutor 1 false).AddTasks
        ([sampleTask "a" 0 []] ++ sampleTask "a" 1 [] :: [sampleTask "c" 0 []]) =
      (some "task with ID a already exists", sampleExecutor [sampleTask "a" 0 []]) ∧
    sampleExecutor [sampleTask "a" 0 []] =
      { NewExecutor 1 false with
        tasks := (NewExecutor 1 false).tasks ++
          [sampleTask "a" 0 []].map (fun u => (u.ID, u)) } ∧
    (∀ u ∈ [sampleTask "a" 0 []],
      mapGet (sampleExecutor [sampleTask "a" 0 []]).tasks u.ID = some u) ∧
    (sampleExecutor [sampleTask "a" 0 []]).results = (NewExecutor 1 false).results :=
  addTasks_stops_at_first_rejection (NewExecutor 1 false) (sampleExecutor [sampleTask "a" 0 []])
    (sampleExecutor [sampleTask "a" 0 []]) [sampleTask "a" 0 []] [sampleTask "c" 0 []]
    (sampleTask "a" 1 []) "task with ID a already exists" rfl rfl

/-! ## Execution of one task: outcomes -/

theorem fieldsAux_blank :
    ∀ (cs : List Char), (∀ c ∈ cs, isSpace c = true) → fieldsAux cs [] = [] := by
  intro cs
  induction cs with
  | nil => intro _; rfl
  | cons c cs ih =>
    intro h
    simp only [fieldsAux, h c (List.mem_cons_self _ _), if_true]
    exact ih (fun c' hc' => h c' (List.mem_cons_of_mem _ hc'))

theorem fields_blank (s : String) (h : ∀ c ∈ s.data, isSpace c = true) : Fields s = [] :=
  fieldsAux_blank s.data h

theorem executeCommand_outcome (t : Task) (deadline : Option Int) (result : TaskResult)
    (w : World) (hs : result.Success = false) (he : result.Error = none) :
    ((t.executeCommand deadline result w).1.Success = true ↔
      (t.executeCommand deadline result w).1.Error = none) ∧
    ((t.executeCommand deadline result w).1.Success = true →
      (t.executeCommand deadline result w).2.1.Status = StatusCompleted) ∧
    ((t.executeCommand deadline result w).1.Success = false →
      (t.executeCommand deadline result w).2.1.Status = StatusFailed) := by
  unfold Task.executeCommand
  simp only [World.run]
  split
  · split <;> simp [hs, he]
  · split
    · simp [hs]
    · split <;> simp [hs, he]

/-- C15: for every task whose type is neither `command` nor `script`, `Execute` returns an
unsuccessful result whose error names the type (`HTTP task type not yet implemented` for
`http`, `unknown task type: ` followed by the type otherwise), sets the status of the task
to failed, and starts no process. -/
theorem execute_unsupported_type (t : Task) (w : World) (hc : t.Typ ≠ TaskTypeCommand)
    (hs : t.Typ ≠ TaskTypeScript) :
    (t.Execute w).1.Success = false ∧
    (t.Execute w).1.Error =
      some (if t.Typ = TaskTypeHTTP then "HTTP task type not yet implemented"
        else "unknown task type: " ++ t.Typ) ∧
    (t.Execute w).2.1.Status = StatusFailed ∧
    (t.Execute w).2.2.started = w.started := by
  unfold Task.Execute
  simp only [if_neg hc, if_neg hs]
  by_cases hh : t.Typ = TaskTypeHTTP
  · simp [hh, Task.executeHTTP]
  · simp [hh]

/-- Witness for C15: a task of type `http` and a task of type `ftp`. -/
theorem execute_unsupported_type_witness :
    (({ sampleTask "a" 0 [] with Typ := TaskTypeHTTP }.Execute okWorld).1.Success = false ∧
      ({ sampleTask "a" 0 [] with Typ := TaskTypeHTTP }.Execute okWorld).1.Error =
        some (if ({ sampleTask "a" 0 [] with Typ := TaskTypeHTTP } : Task).Typ = TaskTypeHTTP
          then "HTTP task type not yet implemented"
          else "unknown task type: " ++
            ({ sampleTask "a" 0 [] with Typ := TaskTypeHTTP } : Task).Typ) ∧
      ({ sampleTask "a" 0 [] with Typ := TaskTypeHTTP }.Execute okWorld).2.1.Status =
        StatusFailed ∧
      ({ sampleTask "a" 0 [] with Typ := TaskTypeHTTP }.Execute okWorld).2.2.started =
        okWorld.started) ∧
    ({ sampleTask "a" 0 [] with Typ := "ftp" }.Execute okWorld).1.Error =
      some "unknown task type: ftp" :=
  ⟨execute_unsupported_type { sampleTask "a" 0 [] with Typ := TaskTypeHTTP } okWorld
      (by decide) (by decide),
   (execute_unsupported_type { sampleTask "a" 0 [] with Typ := "ftp" } okWorld
      (by decide) (by decide)).2.1⟩

/-- C16: for every task of type `command` or `script` with no arguments whose command
string is empty or made of white space only, `Execute` returns an unsuccessful result with
the error `empty command`, sets the status of the task to failed, and starts no
process. -/
theorem execute_empty_command (t : Task) (w : World)
    (htype : t.Typ = TaskTypeCommand ∨ t.Typ = TaskTypeScript) (hargs : t.Args = [])
    (hblank : ∀ c ∈ t.Command.data, isSpace c = true) :
    (t.Execute w).1.Success = false ∧
    (t.Execute w).1.Error = some "empty command" ∧
    (t.Execute w).2.1.Status = StatusFailed ∧
    (t.Execute w).2.1.Error = "empty command" ∧
    (t.Execute w).2.2.started = w.started := by
  have hf := fields_blank t.Command hblank
  have key : ∀ (deadline : Option Int) (result : TaskResult) (t' : Task) (w' : World),
      t'.Args = [] → Fields t'.Command = [] → result.Success = false →
      (t'.executeCommand deadline result w').1.Success = false ∧
      (t'.executeCommand deadline result w').1.Error = some "empty command" ∧
      (t'.executeCommand deadline result w').2.1.Status = StatusFailed ∧
      (t'.executeCommand deadline result w').2.1.Error = "empty command" ∧
      (t'.executeCommand deadline result w').2.2.started = w'.started := by
    intro deadline result t' w' ha hfl hsucc
    unfold Task.executeCommand
    simp [ha, hfl, hsucc]
  unfold Task.Execute
  simp only
  rcases htype with h | h
  · rw [if_pos h]
    exact key _ _ _ _ hargs hf rfl
  · by_cases h' : t.Typ = TaskTypeCommand
    · rw [if_pos h']
      exact key _ _ _ _ hargs hf rfl
    · rw [if_neg h', if_pos h]
      exact key _ _ _ _ hargs hf rfl

/-- Witness for C16: a command made of a blank and a tab. -/
theorem execute_empty_command_witness :
    ({ sampleTask "a" 0 [] with Command := " \t" }.Execute okWorld).1.Success = false ∧
    ({ sampleTask "a" 0 [] with Command := " \t" }.Execute okWorld).1.Error =
      some "empty command" ∧
    ({ sampleTask "a" 0 [] with Command := " \t" }.Execute okWorld).2.1.Status =
      StatusFailed ∧
    ({ sampleTask "a" 0 [] with Command := " \t" }.Execute okWorld).2.1.Error =
      "empty command" ∧
    ({ sampleTask "a" 0 [] with Command := " \t" }.Execute okWorld).2.2.started =
      okWorld.started :=
  execute_empty_command { sampleTask "a" 0 [] with Command := " \t" } okWorld
    (Or.inl rfl) rfl (by decide)

/-- C18: every result that `Execute` returns has `Success` true exactly when its `Error`
is nil, and on return the status of the task is not running: it is completed when the
result is successful and failed otherwise. -/
theorem execute_result_consistent (t : Task) (w : World) :
    ((t.Execute w).1.Success = true ↔ (t.Execute w).1.Error = none) ∧
    (t.Execute w).2.1.Status ≠ StatusRunning ∧
    ((t.Execute w).1.Success = true → (t.Execute w).2.1.Status = StatusCompleted) ∧
    ((t.Execute w).1.Success = false → (t.Execute w).2.1.Status = StatusFailed) := by
  have main : ((t.Execute w).1.Success = true ↔ (t.Execute w).1.Error = none) ∧
      ((t.Execute w).1.Success = true → (t.Execute w).2.1.Status = StatusCompleted) ∧
      ((t.Execute w).1.Success = false → (t.Execute w).2.1.Status = StatusFailed) := by
    unfold Task.Execute
    simp only
    split
    · exact executeCommand_outcome _ _ _ _ rfl rfl
    · split
      · exact executeCommand_outcome _ _ _ _ rfl rfl
      · split <;> simp [Task.executeHTTP]
  obtain ⟨h1, h2, h3⟩ := main
  refine ⟨h1, ?_, h2, h3⟩
  cases hs : (t.Execute w).1.Success with
  | true =>
    rw [h2 hs]
    decide
  | false =>
    rw [h3 hs]
    decide

/-! ## Greeter -/

theorem unicodeToUpper_upperOf (table : Char → Char) (c : Char) :
    UpperOf table c (unicodeToUpper table c) := by
  unfold UpperOf unicodeToUpper
  refine ⟨?_, ?_, ?_⟩
  · intro hl
    have hascii : c.toNat ≤ 0x7F := by omega
    rw [if_pos hascii, if_pos hl]
    obtain ⟨h1, h2⟩ := hl
    generalize c.toNat = n at h1 h2
    interval_cases n <;> decide
  · intro hascii hnl
    rw [if_pos hascii, if_neg hnl]
  · intro hna
    rw [if_neg hna]

theorem toUpper_forall₂ (table : Char → Char) (s : String) :
    List.Forall₂ (UpperOf table) s.data (ToUpper table s).data := by
  show List.Forall₂ (UpperOf table) s.data (s.data.map (unicodeToUpper table))
  rw [List.forall₂_map_right_iff, List.forall₂_same]
  intro c _
  exact unicodeToUpper_upperOf table c

/-- C17: for every prefix and name, `Greet name false` is the prefix, then `, `, then the
name (`World` when the name is empty), then `!`; and `Greet name true` is the upper-cased
form of that message: `strings.ToUpper` of it, which has the same length and, position by
position, the capital letter in place of every ASCII letter `a` to `z`, every other ASCII
character unchanged, and the entry of the library's case table for every character
outside ASCII. -/
theorem greet_message (table : Char → Char) (g : Greeter) (name : String) :
    g.Greet table name false =
      g.pfx ++ ", " ++ (if name = "" then "World" else name) ++ "!" ∧
    g.Greet table name true = ToUpper table (g.Greet table name false) ∧
    (g.Greet table name true).data =
      (g.Greet table name false).data.map (unicodeToUpper table) ∧
    List.Forall₂ (UpperOf table) (g.Greet table name false).data
      (g.Greet table name true).data := by
  refine ⟨rfl, rfl, rfl, ?_⟩
  exact toUpper_forall₂ table (g.Greet table name false)

/-- Witness for C17: the upper-case cases of `TestGreeter_Greet`; for ASCII text the case
table is not consulted. -/
theorem greet_message_witness :
    Greeter.New.Greet (fun c => c) "John" true = "HELLO, JOHN!" ∧
    (Greeter.NewWithPrefix "Greetings").Greet (fun c => c) "Bob" true = "GREETINGS, BOB!" :=
  ⟨String.ext ((greet_message (fun c => c) Greeter.New "John").2.2.1.trans (by decide)),
   String.ext ((greet_message (fun c => c) (Greeter.NewWithPrefix "Greetings")
     "Bob").2.2.1.trans (by decide))⟩

/-- The cases of `TestGreeter_Greet`, whatever the case table holds outside ASCII. -/
theorem greet_examples (table : Char → Char) :
    Greeter.New.Greet table "World" false = "Hello, World!" ∧
    Greeter.New.Greet table "John" false = "Hello, John!" ∧
    Greeter.New.Greet table "John" true = "HELLO, JOHN!" ∧
    Greeter.New.Greet table "" false = "Hello, World!" ∧
    (Greeter.NewWithPrefix "Hey").Greet table "Alice" false = "Hey, Alice!" ∧
    (Greeter.NewWithPrefix "Greetings").Greet table "Bob" true = "GREETINGS, BOB!" :=
  ⟨rfl, rfl, rfl, rfl, rfl, rfl⟩

/-! ## Running: a run that returns no error -/

theorem runOrder_split (fuel : Nat) :
    ∀ (pre rest : List String) (e : Executor) (w : World) (e' : Executor) (w' : World),
      runOrder fuel (pre ++ rest) e w = some (.returned none, e', w') →
      ∃ e1 w1, runOrder fuel pre e w = some (.returned none, e1, w1) ∧
        runOrder fuel rest e1 w1 = some (.returned none, e', w') := by
  intro pre
  induction pre with
  | nil =>
    intro rest e w e' w' h
    exact ⟨e, w, rfl, h⟩
  | cons id pre ih =>
    intro rest e w e' w' h
    rw [List.cons_append, runOrder_cons] at h
    rw [runOrder_cons]
    cases hs : runTask fuel id e w with
    | none => simp [hs] at h
    | some p =>
      obtain ⟨o, e2, w2⟩ := p
      cases o with
      | some out =>
        simp only [hs, Option.some.injEq, Prod.mk.injEq] at h
        exact absurd h.1 (runTask_exit_ne fuel id e w out e2 w2 hs)
      | none =>
        simp only [hs] at h ⊢
        exact ih rest e2 w2 e' w' h

theorem runOrder_frame_state (fuel : Nat) :
    ∀ (ids : List String) (e : Executor) (w : World) (out : Outcome (Option String))
      (e' : Executor) (w' : World), runOrder fuel ids e w = some (out, e', w') →
      TasksEquiv e e' ∧ ∀ k, k ∉ ids → mapGet e'.results k = mapGet e.results k := by
  intro ids
  induction ids with
  | nil =>
    intro e w out e' w' h
    simp only [runOrder, Option.some.injEq, Prod.mk.injEq] at h
    obtain ⟨_, h1, _⟩ := h
    subst h1
    exact ⟨tasksEquiv_refl _, fun _ _ => rfl⟩
  | cons id ids ih =>
    intro e w out e' w' h
    rw [runOrder_cons] at h
    cases hs : runTask fuel id e w with
    | none => simp [hs] at h
    | some p =>
      obtain ⟨o, e2, w2⟩ := p
      obtain ⟨heq, _, hrs, _⟩ := runTask_frame fuel id e w o e2 w2 hs
      cases o with
      | some out' =>
        simp only [hs, Option.some.injEq, Prod.mk.injEq] at h
        obtain ⟨_, h1, _⟩ := h
        subst h1
        exact ⟨heq, fun k hk => hrs k (fun hkid => hk (hkid ▸ List.mem_cons_self _ _))⟩
      | none =>
        simp only [hs] at h
        obtain ⟨heq2, hrs2⟩ := ih e2 w2 out e' w' h
        refine ⟨tasksEquiv_trans heq heq2, ?_⟩
        intro k hk
        rw [hrs2 k (fun hm => hk (List.mem_cons_of_mem _ hm))]
        exact hrs k (fun hkid => hk (hkid ▸ List.mem_cons_self _ _))

theorem checkDependenciesLoop_true (results : GoMap (Option TaskResult)) :
    ∀ (deps : List String), checkDependenciesLoop results deps = some true →
      ∀ d ∈ deps, ∃ r, mapGet results d = some (some r) ∧ r.Success = true := by
  intro deps
  induction deps with
  | nil => intro _ d hd; simp at hd
  | cons d rest ih =>
    intro h d' hd'
    simp only [checkDependenciesLoop] at h
    cases hd : mapGet results d with
    | none => simp [hd] at h
    | some o =>
      cases o with
      | none => simp [hd] at h
      | some r =>
        simp only [hd] at h
        cases hs : r.Success with
        | false => simp [hs] at h
        | true =>
          simp only [hs, Bool.not_true, Bool.false_eq_true, if_false] at h
          rcases List.mem_cons.mp hd' with h1 | h1
          · subst h1
            exact ⟨r, hd, hs⟩
          · exact ih h d' h1

theorem runTask_continue_success (fuel : Nat) (id : String) (e : Executor) (w : World)
    (e' : Executor) (w' : World) (task : Task) (r : TaskResult)
    (h : runTask fuel id e w = some (none, e', w')) (htask : mapGet e.tasks id = some task)
    (hres : mapGet e'.results id = some (some r)) (hsucc : r.Success = true) :
    e.checkDependencies task = some true := by
  unfold runTask at h
  simp only [htask] at h
  cases hc : e.checkDependencies task with
  | none => simp [hc] at h
  | some b =>
    cases b with
    | true => rfl
    | false =>
      exfalso
      simp only [hc, Option.some.injEq, Prod.mk.injEq, true_and] at h
      obtain ⟨h1, _⟩ := h
      subst h1
      rw [mapGet_record_results_self] at hres
      simp only [Option.some.injEq] at hres
      subst hres
      simp [skippedResult] at hsucc

/-- C19: if `ExecuteAll` returns no error, every registered task has a (non-nil) recorded
result, and every task whose recorded result is successful has only dependencies whose
recorded results are successful.  This holds whatever results were recorded before the
call and whatever the retry counts are. -/
theorem executeAll_ok_results (e : Executor) (iter : List String) (fuel : Nat) (w : World)
    (e' : Executor) (w' : World) (hiter : iter.Perm (mapKeys e.tasks))
    (hret : e.ExecuteAll iter fuel w = some (.returned none, e', w')) :
    (∀ id, Registered e.tasks id → ∃ r, e'.GetResult id = (some r, true)) ∧
    ∀ id t r, mapGet e.tasks id = some t → e'.GetResult id = (some r, true) →
      r.Success = true →
      ∀ d ∈ t.DependsOn, ∃ rd, e'.GetResult d = (some rd, true) ∧ rd.Success = true := by
  -- the run is the loop over a returned order
  have hrun : ∃ order, buildExecutionOrder e.tasks iter fuel = some (.ok order) ∧
      runOrder fuel order e w = some (.returned none, e', w') := by
    unfold Executor.ExecuteAll at hret
    by_cases hlen : e.tasks.length = 0
    · rw [if_pos hlen] at hret
      simp at hret
    · rw [if_neg hlen] at hret
      cases hb : buildExecutionOrder e.tasks iter fuel with
      | none => simp [hb] at hret
      | some res =>
        cases res with
        | error err => simp [hb] at hret
        | ok order =>
          simp only [hb] at hret
          exact ⟨order, rfl, hret⟩
  obtain ⟨order, hord, hloop⟩ := hrun
  obtain ⟨hnd, hbefore, hmem⟩ := buildExecutionOrder_sound e.tasks iter fuel order
    (fun k hk => (registered_of_perm hiter k).mpr hk) hord
  have hget : ∀ id (r : TaskResult), e'.GetResult id = (some r, true) →
      mapGet e'.results id = some (some r) := by
    intro id r h
    unfold Executor.GetResult at h
    cases hm : mapGet e'.results id with
    | none => simp [hm] at h
    | some o =>
      simp only [hm, Prod.mk.injEq, and_true] at h
      rw [h]
  constructor
  · intro id hid
    have hin : id ∈ order := hmem id ((registered_of_perm hiter id).mpr hid)
    obtain ⟨r, hr⟩ := runOrder_results fuel order e w e' w' hloop id hin
    exact ⟨r, getResult_of_mapGet_some _ _ _ hr⟩
  · intro id t r ht hres hsucc d hd
    have hres' := hget id r hres
    have hin : id ∈ order := hmem id ((registered_of_perm hiter id).mpr ⟨t, ht⟩)
    obtain ⟨pre, post, hsplit⟩ := List.append_of_mem hin
    obtain ⟨t0, ht0, hpre⟩ := hbefore pre id post hsplit
    rw [ht] at ht0
    cases ht0
    have hdpre : d ∈ pre := hpre d hd
    rw [hsplit] at hnd hloop
    have hnd1 := List.nodup_append.mp hnd
    have hid_post : id ∉ post := (List.nodup_cons.mp hnd1.2.1).1
    have hd_ne : d ≠ id := fun h => hnd1.2.2 (h ▸ hdpre) (List.mem_cons_self _ _)
    have hd_post : d ∉ post := fun h => hnd1.2.2 hdpre (List.mem_cons_of_mem _ h)
    obtain ⟨e1, w1, hrun1, hrun2⟩ := runOrder_split fuel pre (id :: post) e w e' w' hloop
    rw [runOrder_cons] at hrun2
    cases hs : runTask fuel id e1 w1 with
    | none => simp [hs] at hrun2
    | some p =>
      obtain ⟨o, e2, w2⟩ := p
      cases o with
      | some out =>
        simp only [hs, Option.some.injEq, Prod.mk.injEq] at hrun2
        exact absurd hrun2.1 (runTask_exit_ne fuel id e1 w1 out e2 w2 hs)
      | none =>
        simp only [hs] at hrun2
        obtain ⟨heq1, _⟩ := runOrder_frame_state fuel pre e w _ e1 w1 hrun1
        obtain ⟨_, hrs_post⟩ := runOrder_frame_state fuel post e2 w2 _ e' w' hrun2
        obtain ⟨_, _, hrs_step, _⟩ := runTask_frame fuel id e1 w1 none e2 w2 hs
        obtain ⟨t1, ht1, hcfg⟩ := tasksEquiv_get heq1 ht
        have hres2 : mapGet e2.results id = some (some r) := by
          rw [← hrs_post id hid_post]
          exact hres'
        have hcheck := runTask_continue_success fuel id e1 w1 e2 w2 t1 r hs ht1 hres2 hsucc
        have hd1 : d ∈ t1.DependsOn := by rw [hcfg.2.2]; exact hd
        obtain ⟨rd, hrd, hrds⟩ := checkDependenciesLoop_true e1.results t1.DependsOn hcheck d hd1
        refine ⟨rd, getResult_of_mapGet_some _ _ _ ?_, hrds⟩
        rw [hrs_post d hd_post, hrs_step d hd_ne]
        exact hrd

/-- Witness for C19: `a` and `b`, where `b` depends on `a`, every process succeeding. -/
theorem executeAll_ok_results_witness :
    ∃ e' w',
      (sampleExecutor [sampleTask "a" 0 [], sampleTask "b" 0 ["a"]]).ExecuteAll ["b", "a"] 2
          okWorld = some (.returned none, e', w') ∧
      (∀ id,
        Registered (sampleExecutor [sampleTask "a" 0 [], sampleTask "b" 0 ["a"]]).tasks id →
        ∃ r, e'.GetResult id = (some r, true)) ∧
      ∀ id t r,
        mapGet (sampleExecutor [sampleTask "a" 0 [], sampleTask "b" 0 ["a"]]).tasks id =
          some t →
        e'.GetResult id = (some r, true) → r.Success = true →
        ∀ d ∈ t.DependsOn, ∃ rd, e'.GetResult d = (some rd, true) ∧ rd.Success = true :=
  ⟨_, _, rfl,
    executeAll_ok_results (sampleExecutor [sampleTask "a" 0 [], sampleTask "b" 0 ["a"]])
      ["b", "a"] 2 okWorld _ _ (List.Perm.swap _ _ _) rfl⟩

end GoCliTool
